import Mathlib

/-!
# Verification of sgflib (Smart Game Format parser & utility library)

A shallow embedding, in Lean 4, of the data model, property metadata, merge
engine, normalizer, byte-level serializer and byte-level parser of
`sgflib.py`, together with theorems settling the specification claims.

Modelling conventions:

* Python `bytes` are `List Nat` (each element a byte value, < 256).
* Python `dict` (the `Node` class) is an insertion-ordered association list;
  assignment to an existing key updates the value in place (keeping its
  position), assignment to a fresh key appends.  This matches CPython dict
  semantics, which the serializer relies on.
* Python exceptions are `Except` errors.
* `copy.deepcopy` is the identity on our value-level terms.
* Unbounded `while` loops of the source are either structural recursions or
  fuel-indexed recursions; top-level entry points supply fuel large enough
  (the theorems below prove the supplied fuel suffices on all inputs they
  speak about).
-/

set_option maxHeartbeats 4000000
set_option maxRecDepth 4000

deriving instance DecidableEq for Except

namespace Sgflib

/-! ## Property metadata (the static tables of class `Node`) -/

/-- `Node.list_properties`: IDs of properties with multiple values, stored in
lists. -/
def listProperties : List String :=
  ["AB", "AE", "AR", "AW", "CR", "DD", "LB", "LN", "MA", "SL", "SQ",
   "TB", "TR", "TW", "VW"]

/-- `Node.scalar_properties`: IDs of properties with single values. -/
def scalarProperties : List String :=
  ["AN", "AP", "AS", "B", "BL", "BM", "BR", "BT", "C", "CA", "CP", "DM",
   "DO", "DT", "EV", "FF", "FG", "GB", "GC", "GM", "GN", "GW", "HA",
   "HO", "IP", "IT", "IY", "KM", "KO", "MN", "N", "OB", "ON", "OT", "OW",
   "PB", "PC", "PL", "PM", "PW", "RE", "RO", "RU", "SE", "SO", "ST",
   "SU", "SZ", "TE", "TM", "UC", "US", "V", "W", "WL", "WR", "WT"]

/-- `Node.text_properties`: IDs of properties with values of type text and
simpletext, encoded per the CA/charset property. -/
def textProperties : List String :=
  ["AN", "AP", "AS", "BR", "BT", "C", "CA", "CP", "DT", "EV", "FG", "GC",
   "GN", "IP", "IY", "LB", "N", "ON", "OT", "PB", "PC", "PW", "RE", "RO",
   "RU", "SO", "SU", "US", "WR", "WT"]

/-- `Node.real_properties`: IDs of properties with real-number values. -/
def realProperties : List String := ["KM", "BL", "TM", "V", "WL"]

/-- `Node.root_only_properties`. -/
def rootOnlyProperties : List String :=
  ["AP", "CA", "FF", "GM", "ST", "SZ", "AN", "BR", "BT", "CP", "DT",
   "EV", "GN", "GC", "ON", "OT", "PB", "PW", "PC", "RE", "RO", "RU",
   "SO", "TM", "US", "WR", "WT"]

/-- `Node.setup_properties`. -/
def setupProperties : List String := ["AB", "AW", "AE", "PL"]

/-- `Node.root_properties = root_only_properties | setup_properties`. -/
def rootProperties : List String := rootOnlyProperties ++ setupProperties

/-- `Node.move_properties`. -/
def moveProperties : List String :=
  ["B", "W", "KO", "MN", "BM", "DO", "IT", "TE", "BL", "OB", "OW", "WL"]

/-- `Node.move_required_properties`. -/
def moveRequiredProperties : List String := ["B", "W"]

/-- A value appearing in an ignore-rule set: either a specific string, or the
wildcard sentinel (the Python builtin `any` is used as that sentinel in the
source: `'AP': {any}` and `--ignore-property ID` without `=value`). -/
inductive IgnoreVal where
  | exact (s : String)
  | wildcard
deriving DecidableEq

/-- `Node.ignore_property_values`: default property IDs and value sets to
ignore when merging game trees. -/
def defaultIgnoreValues (pid : String) : List IgnoreVal :=
  if pid = "RE" then [IgnoreVal.exact "?"]
  else if pid = "AP" then [IgnoreVal.wildcard]
  else []

/-! ## Data model -/

/-- A property value stored in a `Node`: a single string (scalar properties)
or a list of strings (list-valued properties). -/
inductive PValue where
  | str (s : String)
  | strs (vs : List String)
deriving DecidableEq

/-- An SGF `Node`: an insertion-ordered mapping from property ID to value
(Python `dict` subclass). -/
abbrev Node := List (String × PValue)

/-- First-match lookup, i.e. `node[key]` / `key in node` (keys are unique in
any node the library builds). -/
def lookupProp : Node → String → Option PValue
  | [], _ => none
  | (k, v) :: rest, key => if k = key then some v else lookupProp rest key

/-- `node[key] = v`: update in place when the key exists (CPython dicts keep
the key's position), append otherwise. -/
def setProp : Node → String → PValue → Node
  | [], key, v => [(key, v)]
  | (k, w) :: rest, key, v =>
    if k = key then (k, v) :: rest else (k, w) :: setProp rest key v

/-- `del node[key]`. -/
def delProp : Node → String → Node
  | [], _ => []
  | (k, w) :: rest, key => if k = key then rest else (k, w) :: delProp rest key

/-- The keys of a node, in insertion order (`node.keys()`). -/
def keysOf (n : Node) : List String := n.map Prod.fst

/-- Python truthiness of a property value (`''` and `[]` are falsy). -/
def pvalueTruthy : PValue → Bool
  | PValue.str s => s ≠ ""
  | PValue.strs vs => vs ≠ []

/-- An SGF game tree: a trunk of Nodes (the `list` contents of the
`GameTree` object) plus branch GameTrees (`self.branches`).  The
`encoding` attribute occasionally set by the parser is not part of
`GameTree.__eq__` and is omitted. -/
inductive GameTree where
  | mk (trunk : List Node) (branches : List GameTree)

mutual

/-- Boolean equality on game trees (trunks and branches componentwise). -/
def treeBEq : GameTree → GameTree → Bool
  | GameTree.mk t bs, GameTree.mk t2 bs2 => t == t2 && treeListBEq bs bs2

/-- Boolean equality on lists of game trees. -/
def treeListBEq : List GameTree → List GameTree → Bool
  | [], [] => true
  | a :: as, b :: bs => treeBEq a b && treeListBEq as bs
  | _, _ => false

end

mutual

theorem treeBEq_iff (a b : GameTree) : treeBEq a b = true ↔ a = b := by
  cases a with
  | mk t bs =>
    cases b with
    | mk t2 bs2 =>
      simp only [treeBEq, Bool.and_eq_true, beq_iff_eq, GameTree.mk.injEq]
      exact and_congr Iff.rfl (treeListBEq_iff bs bs2)

theorem treeListBEq_iff (as bs : List GameTree) :
    treeListBEq as bs = true ↔ as = bs := by
  cases as with
  | nil =>
    cases bs with
    | nil => simp [treeListBEq]
    | cons b bs2 => simp [treeListBEq]
  | cons a as2 =>
    cases bs with
    | nil => simp [treeListBEq]
    | cons b bs2 =>
      simp only [treeListBEq, Bool.and_eq_true, List.cons.injEq]
      exact and_congr (treeBEq_iff a b) (treeListBEq_iff as2 bs2)

end

instance : DecidableEq GameTree := fun a b =>
  decidable_of_iff (treeBEq a b = true) (treeBEq_iff a b)

/-- The trunk of a game tree (the `list` contents). -/
def GameTree.trunk : GameTree → List Node
  | GameTree.mk t _ => t

/-- The branches of a game tree. -/
def GameTree.branches : GameTree → List GameTree
  | GameTree.mk _ b => b

/-- A `Collection` is a list of `GameTree`s (the `path` attribute is not part
of equality and is omitted). -/
abbrev Collection := List GameTree

mutual

/-- A size measure counting tree objects and trunk nodes; used for fuel
bounds of the merge recursion. -/
def treeSize : GameTree → Nat
  | GameTree.mk t bs => t.length + 1 + treeSizeList bs

/-- Sum of `treeSize` over a list. -/
def treeSizeList : List GameTree → Nat
  | [] => 0
  | b :: bs => treeSize b + treeSizeList bs

end

/-! ## Python string primitives used by the library

`str.strip()` and `str.lower()` are modelled for the ASCII range (all
whitespace and cased characters appearing in this development are ASCII;
Python additionally strips/lowers some non-ASCII Unicode characters, which
no claim depends on). -/

/-- ASCII whitespace, as stripped by `str.strip()`. -/
def isPyWsChar (c : Char) : Bool :=
  c = ' ' || c = '\t' || c = '\n' || c = '\x0d' || c = '\x0b' || c = '\x0c'

/-- `s.strip()`. -/
def pyStrip (s : String) : String :=
  String.mk (((s.toList.dropWhile isPyWsChar).reverse.dropWhile isPyWsChar).reverse)

/-- `s.lower()` (ASCII case folding; `Char.toLower` lowers exactly A-Z). -/
def pyLower (s : String) : String := String.mk (s.toList.map Char.toLower)

/-! ## Node classification and equivalence -/

/-- The three node types. -/
inductive NodeType where
  | root
  | setup
  | move
deriving DecidableEq

/-- `Node.node_types`: the classification table, in its fixed dict order
(root, setup, move); the first category intersecting the node's key set
wins. -/
def nodeTypesTable : List (NodeType × List String) :=
  [(NodeType.root, rootProperties),
   (NodeType.setup, setupProperties),
   (NodeType.move, moveProperties)]

/-- Errors raised by the data model and merge engine: `PropertyError`,
`MergeError` (the conflict case carries the property ID and both values, as
the source's message does), `IndexError` (a `branch[0]` access on an empty
trunk), `ValueError` (a failing `float()` conversion), plus an out-of-fuel
marker that the theorems prove unreachable for the fuel supplied. -/
inductive SgfError where
  | propertyError (msg : String)
  | mergeConflict (pid selfValue otherValue : String)
  | mergeError (msg : String)
  | nodeIndexError
  | valueError
  | outOfFuel
deriving DecidableEq

/-- `Node.node_type()`: `None` for an empty node or one whose only content
gate is an empty comment; otherwise the first matching category, else a
`PropertyError`. -/
def nodeType (n : Node) : Except SgfError (Option NodeType) :=
  let props := keysOf n
  if props.isEmpty ∨ (props.contains "C" ∧
      ¬ pvalueTruthy ((lookupProp n "C").getD (PValue.str ""))) then
    Except.ok none
  else
    match nodeTypesTable.find? (fun p => props.any (fun k => p.2.contains k)) with
    | some p => Except.ok (some p.1)
    | none => Except.error (SgfError.propertyError "Unknown node type")

/-- The move-player keys of a node (`set(self.keys()) &
move_required_properties`, as a sublist of the key list; the source only
uses its cardinality and single element). -/
def movePlayers (n : Node) : List String :=
  (keysOf n).filter (fun k => moveRequiredProperties.contains k)

/-- `Node.equivalent(other)`: same node type (an untyped node matches
anything); for move nodes, the same single player and the same
coordinates.  Raises `PropertyError` when a move node does not have exactly
one player property. -/
def nodeEquivalent (a b : Node) : Except SgfError Bool := do
  let ta ← nodeType a
  let tb ← nodeType b
  if ta = none ∨ tb = none then
    return true
  else if ta ≠ tb then
    return false
  else if ta = some NodeType.move then
    match movePlayers a, movePlayers b with
    | [p], [q] =>
      if p ≠ q then return false
      else if lookupProp a p ≠ lookupProp b q then return false
      else return true
    | _, _ => Except.error (SgfError.propertyError "Expected 1 player move")
  else
    return true

/-! ## Comment prefixing -/

/-- Python falsiness of an optional comment (`None` or `''`). -/
def commentFalsy : Option String → Bool
  | none => true
  | some s => s = ""

/-- `Node.prefix_comment(comment)`: no-op for a falsy comment; otherwise
prepend `comment + '\n'` to a nonblank existing comment, else set the
comment outright.  (`C` values are scalars; a list value cannot occur for
`C` in library-built nodes.) -/
def nodePrefixComment (n : Node) (c : Option String) : Node :=
  if commentFalsy c then n
  else
    let cv := c.getD ""
    match lookupProp n "C" with
    | some (PValue.str old) =>
      if pyStrip old ≠ "" then setProp n "C" (PValue.str (cv ++ "\n" ++ old))
      else setProp n "C" (PValue.str cv)
    | _ => setProp n "C" (PValue.str cv)

mutual

/-- `GameTree.prefix_comment(comment)`: prefix the first trunk node, or,
for an empty trunk, every branch. -/
def treePrefixComment : GameTree → Option String → GameTree
  | GameTree.mk trunk branches, c =>
    if commentFalsy c then GameTree.mk trunk branches
    else
      match trunk with
      | n :: rest => GameTree.mk (nodePrefixComment n c :: rest) branches
      | [] => GameTree.mk [] (treeListPrefixComment branches c)

/-- `prefix_comment` mapped over branch lists. -/
def treeListPrefixComment : List GameTree → Option String → List GameTree
  | [], _ => []
  | t :: ts, c => treePrefixComment t c :: treeListPrefixComment ts c

end

/-- The `GameTree(nodelist, branches, comment)` constructor applied to an
explicit trunk and branch list: it stores both and then calls
`prefix_comment(comment)`. -/
def mkGameTree (trunk : List Node) (branches : List GameTree)
    (c : Option String) : GameTree :=
  treePrefixComment (GameTree.mk trunk branches) c

/-! ## Real-number values

Python's `float()` and `math.isclose()` operate on IEEE binary64.  They are
modelled here by exact rationals: finite decimal literals are parsed
exactly, and `isclose` uses its documented definition
`abs(a-b) <= max(rel_tol*max(abs(a), abs(b)), abs_tol)` with the defaults
`rel_tol = 1e-09`, `abs_tol = 0.0`.  Every concrete comparison a theorem
below relies on has a margin at least seven orders of magnitude wider than
binary64 representation error, so the rational model and binary64 decide
those comparisons identically.  (`float()` niceties that no SGF value in
any claim uses - infinities, NaN, underscores in literals, hex floats -
are modelled as parse failures.) -/

/-- Value of a nonempty digit string. -/
def digitsVal (cs : List Char) : Nat :=
  cs.foldl (fun a c => a * 10 + (c.toNat - 48)) 0

/-- Parse the optional exponent suffix of a float literal. -/
def parseExpPart : List Char → Option Int
  | [] => some 0
  | c :: rest =>
    if c = 'e' ∨ c = 'E' then
      match rest with
      | '+' :: ds =>
        if ds ≠ [] ∧ ds.all Char.isDigit then some (Int.ofNat (digitsVal ds))
        else none
      | '-' :: ds =>
        if ds ≠ [] ∧ ds.all Char.isDigit then some (-(Int.ofNat (digitsVal ds)))
        else none
      | ds =>
        if ds ≠ [] ∧ ds.all Char.isDigit then some (Int.ofNat (digitsVal ds))
        else none
    else none

/-- An exact rational as an explicit (unreduced) fraction; `Rat`'s
gcd-normalized arithmetic is avoided because kernel evaluation cannot
reduce it.  The denominator is always a positive power of ten here. -/
structure PyFloat where
  num : Int
  den : Nat
deriving DecidableEq

/-- The rational number a `PyFloat` denotes. -/
def PyFloat.toRat (f : PyFloat) : ℚ := (f.num : ℚ) / (f.den : ℚ)

/-- Parse an unsigned float literal: digits, optional fraction, optional
exponent. -/
def parseUnsignedFloat (cs : List Char) : Option PyFloat :=
  let ip := cs.takeWhile Char.isDigit
  let rest := cs.drop ip.length
  let build : Nat → Nat → Int → PyFloat := fun mant fracLen e =>
    if 0 ≤ e then
      PyFloat.mk (Int.ofNat (mant * 10 ^ e.toNat)) (10 ^ fracLen)
    else
      PyFloat.mk (Int.ofNat mant) (10 ^ (fracLen + (-e).toNat))
  match rest with
  | '.' :: rest2 =>
    let fp := rest2.takeWhile Char.isDigit
    let rest3 := rest2.drop fp.length
    if ip = [] ∧ fp = [] then none
    else
      match parseExpPart rest3 with
      | some e => some (build (digitsVal (ip ++ fp)) fp.length e)
      | none => none
  | _ =>
    if ip = [] then none
    else
      match parseExpPart rest with
      | some e => some (build (digitsVal ip) 0 e)
      | none => none

/-- `float(s)` on a finite decimal literal: strip whitespace, optional
sign, mantissa and exponent; `none` models a `ValueError`. -/
def parseFloat (s : String) : Option PyFloat :=
  let cs := ((s.toList.dropWhile isPyWsChar).reverse.dropWhile isPyWsChar).reverse
  match cs with
  | '+' :: rest => parseUnsignedFloat rest
  | '-' :: rest =>
    (parseUnsignedFloat rest).map (fun f => PyFloat.mk (-f.num) f.den)
  | rest => parseUnsignedFloat rest

/-- `math.isclose(a, b)` with default tolerances (`rel_tol=1e-09`,
`abs_tol=0.0`), i.e. `abs(a-b) <= rel_tol * max(abs(a), abs(b))` (the
`max(..., abs_tol)` is the identity since the relative term is
nonnegative), evaluated by clearing the positive denominators:
`abs(a-b) * 10^9` against `max(abs a, abs b)` cross-multiplied.
`mathIsClose_iff_toRat` below checks this against the textbook form. -/
def mathIsClose (a b : PyFloat) : Bool :=
  -- abs(a - b) = |num a * den b - num b * den a| / (den a * den b)
  let dnum : Int := |a.num * (b.den : Int) - b.num * (a.den : Int)|
  -- max(abs a, abs b) as a fraction mnum / mden
  let useA : Bool := |b.num| * (a.den : Int) ≤ |a.num| * (b.den : Int)
  let mnum : Int := if useA then |a.num| else |b.num|
  let mden : Nat := if useA then a.den else b.den
  -- dnum / (den a * den b) ≤ mnum / (mden * 10^9)
  decide (dnum * (mden : Int) * 1000000000 ≤ mnum * (a.den : Int) * (b.den : Int))

/-- `mathIsClose` agrees with `abs(a-b) <= max(rel_tol*max(abs a, abs b),
abs_tol)` over the denoted rationals, for positive denominators. -/
theorem mathIsClose_iff_toRat (a b : PyFloat) (ha : 0 < a.den) (hb : 0 < b.den) :
    mathIsClose a b = true ↔
      |a.toRat - b.toRat| ≤
        max ((1 / 1000000000) * max |a.toRat| |b.toRat|) 0 := by
  have hda : (0 : ℚ) < (a.den : ℚ) := by exact_mod_cast ha
  have hdb : (0 : ℚ) < (b.den : ℚ) := by exact_mod_cast hb
  have hnn : (0:ℚ) ≤ (1 / 1000000000) * max |a.toRat| |b.toRat| := by positivity
  rw [max_eq_left hnn]
  have habs : |a.toRat - b.toRat| =
      |(a.num : ℚ) * (b.den : ℚ) - (b.num : ℚ) * (a.den : ℚ)| /
        ((a.den : ℚ) * (b.den : ℚ)) := by
    rw [PyFloat.toRat, PyFloat.toRat,
      div_sub_div _ _ (ne_of_gt hda) (ne_of_gt hdb), abs_div,
      abs_of_pos (mul_pos hda hdb)]
    ring_nf
  have h1 : |a.toRat| = (|a.num| : ℚ) / (a.den : ℚ) := by
    rw [PyFloat.toRat, abs_div, abs_of_pos hda]
  have h2 : |b.toRat| = (|b.num| : ℚ) / (b.den : ℚ) := by
    rw [PyFloat.toRat, abs_div, abs_of_pos hdb]
  have hmaxq : max |a.toRat| |b.toRat| =
      max ((|a.num| : ℚ) * (b.den : ℚ)) ((|b.num| : ℚ) * (a.den : ℚ)) /
        ((a.den : ℚ) * (b.den : ℚ)) := by
    rw [h1, h2]
    rw [show (|a.num| : ℚ) / (a.den : ℚ) =
        ((|a.num| : ℚ) * (b.den : ℚ)) / ((a.den : ℚ) * (b.den : ℚ)) by
      rw [mul_div_mul_right _ _ (ne_of_gt hdb)]]
    rw [show (|b.num| : ℚ) / (b.den : ℚ) =
        ((|b.num| : ℚ) * (a.den : ℚ)) / ((a.den : ℚ) * (b.den : ℚ)) by
      rw [mul_comm (a.den : ℚ) (b.den : ℚ), mul_div_mul_right _ _ (ne_of_gt hda)]]
    rw [max_div_div_right (le_of_lt (mul_pos hda hdb))]
  -- reduce the rational inequality to a denominator-free form
  have hiff : (|a.toRat - b.toRat| ≤ (1 / 1000000000) * max |a.toRat| |b.toRat|) ↔
      |(a.num : ℚ) * (b.den : ℚ) - (b.num : ℚ) * (a.den : ℚ)| * 1000000000 ≤
        max ((|a.num| : ℚ) * (b.den : ℚ)) ((|b.num| : ℚ) * (a.den : ℚ)) := by
    rw [habs, hmaxq, div_le_iff₀ (mul_pos hda hdb)]
    rw [show (1 / 1000000000 : ℚ) *
        (max ((|a.num| : ℚ) * (b.den : ℚ)) ((|b.num| : ℚ) * (a.den : ℚ)) /
          ((a.den : ℚ) * (b.den : ℚ))) * ((a.den : ℚ) * (b.den : ℚ)) =
        max ((|a.num| : ℚ) * (b.den : ℚ)) ((|b.num| : ℚ) * (a.den : ℚ)) /
          1000000000 by
      field_simp
      ring]
    rw [le_div_iff₀ (by norm_num : (0:ℚ) < 1000000000)]
  rw [hiff, mathIsClose]
  simp only [decide_eq_true_eq]
  by_cases hc : |b.num| * (a.den : Int) ≤ |a.num| * (b.den : Int)
  · have hcq : (|b.num| : ℚ) * (a.den : ℚ) ≤ (|a.num| : ℚ) * (b.den : ℚ) := by
      exact_mod_cast hc
    rw [max_eq_left hcq]
    simp only [hc, decide_eq_true_eq, if_pos]
    constructor
    · intro h
      have h3 : ((|a.num * (b.den : Int) - b.num * (a.den : Int)| : Int) : ℚ) *
          (a.den : ℚ) * 1000000000 ≤ (|a.num| : ℚ) * (a.den : ℚ) * (b.den : ℚ) := by
        exact_mod_cast h
      push_cast at h3
      have h4 := (mul_le_mul_right hda).mpr (le_refl (0:ℚ))
      nlinarith [h3, hda]
    · intro h
      have h3 : |(a.num : ℚ) * (b.den : ℚ) - (b.num : ℚ) * (a.den : ℚ)| *
          (a.den : ℚ) * 1000000000 ≤ (|a.num| : ℚ) * (a.den : ℚ) * (b.den : ℚ) := by
        nlinarith [h, hda]
      have h5 : ((|a.num * (b.den : Int) - b.num * (a.den : Int)| *
          (a.den : Int) * 1000000000 : Int) : ℚ) ≤
          ((|a.num| * (a.den : Int) * (b.den : Int) : Int) : ℚ) := by
        push_cast
        nlinarith [h3]
      exact_mod_cast h5
  · have hcq : ¬ ((|b.num| : ℚ) * (a.den : ℚ) ≤ (|a.num| : ℚ) * (b.den : ℚ)) := by
      intro hx
      exact hc (by exact_mod_cast hx)
    rw [max_eq_right (le_of_not_le hcq)]
    simp only [hc, decide_eq_true_eq, if_neg, decide_eq_false_iff_not,
      not_false_eq_true]
    constructor
    · intro h
      have h3 : ((|a.num * (b.den : Int) - b.num * (a.den : Int)| : Int) : ℚ) *
          (b.den : ℚ) * 1000000000 ≤ (|b.num| : ℚ) * (a.den : ℚ) * (b.den : ℚ) := by
        exact_mod_cast h
      push_cast at h3
      nlinarith [h3, hdb]
    · intro h
      have h3 : |(a.num : ℚ) * (b.den : ℚ) - (b.num : ℚ) * (a.den : ℚ)| *
          (b.den : ℚ) * 1000000000 ≤ (|b.num| : ℚ) * (a.den : ℚ) * (b.den : ℚ) := by
        nlinarith [h, hdb]
      have h5 : ((|a.num * (b.den : Int) - b.num * (a.den : Int)| *
          (b.den : Int) * 1000000000 : Int) : ℚ) ≤
          ((|b.num| * (a.den : Int) * (b.den : Int) : Int) : ℚ) := by
        push_cast
        nlinarith [h3]
      exact_mod_cast h5

/-! ## Per-property merge -/

/-- Membership of a concrete string in an ignore-value set (`self_value in
ignore_values`); the wildcard sentinel, being the `any` builtin, never
equals a string. -/
def ignoreContainsStr (ivs : List IgnoreVal) (s : String) : Bool :=
  ivs.contains (IgnoreVal.exact s)

/-- Membership of the wildcard sentinel in an ignore-value set (`any in
ignore_values`). -/
def ignoreContainsWildcard (ivs : List IgnoreVal) : Bool :=
  ivs.contains IgnoreVal.wildcard

/-- The empty ignore map (the `ignore_property_values=None` default). -/
def noIgnores : String → List IgnoreVal := fun _ => []

/-- `Node.merge_differing_scalar_property_values(property_id, other_value,
ignore_values)`.  Returns the updated node, or the raised error. -/
def mergeDifferingScalarPropertyValues (self : Node) (pid : String)
    (otherValue : String) (ignoreValues : List IgnoreVal) :
    Except SgfError Node :=
  match lookupProp self pid with
  | some (PValue.str sv0) =>
    -- if self_value in ignore_values: clear it so other's value is used
    let node1 := if ignoreContainsStr ignoreValues sv0 then delProp self pid
                 else self
    let selfValue : Option String :=
      if ignoreContainsStr ignoreValues sv0 then none else some sv0
    if otherValue = "" then Except.ok node1
    else
      match selfValue with
      | none => Except.ok (setProp node1 pid (PValue.str otherValue))
      | some sv =>
        if sv = "" then Except.ok (setProp node1 pid (PValue.str otherValue))
        else if realProperties.contains pid then
          match parseFloat sv, parseFloat otherValue with
          | some a, some b =>
            if mathIsClose a b then Except.ok node1
            else if textProperties.contains pid ∧ pyLower sv = pyLower otherValue then
              Except.ok node1
            else Except.error (SgfError.mergeConflict pid sv otherValue)
          | _, _ => Except.error SgfError.valueError
        else if textProperties.contains pid ∧ pyLower sv = pyLower otherValue then
          Except.ok node1
        else Except.error (SgfError.mergeConflict pid sv otherValue)
  | _ => Except.error (SgfError.propertyError "scalar value expected")

/-- The comment argument preprocessing of `Node.merge`: `None` becomes the
empty prefix, a string `c` becomes `c + '\n'`. -/
def commentArg : Option String → String
  | none => ""
  | some c => c ++ "\n"

/-- First-occurrence deduplication helper (the element list denoted by a
Python `set` built from a list). -/
def dedupKeepFirstAux : List String → List String → List String
  | [], _ => []
  | s :: rest, seen =>
    if seen.contains s then dedupKeepFirstAux rest seen
    else s :: dedupKeepFirstAux rest (s :: seen)

/-- The distinct elements of a list, in first-occurrence order. -/
def dedupKeepFirst (l : List String) : List String := dedupKeepFirstAux l []

/-- The body of `Node.merge`'s `for (property_id, other_value) in
other.items()` loop, folding the accumulated `self`.

The loop's one unordered construct is `self[pid].extend(extras)` where
`extras` is a Python *set* (`other_values - self_values`): CPython iterates
a set of strings in a hash-table order that is not a function of the
element values (string hashing is randomized per process).  The embedding
therefore takes the iteration order as a parameter `setOrder`: the runtime
presents the set `dedupKeepFirst ovList |>.filter (not in target)` to
`extend` as `setOrder` applied to that element list, and any permutation is
a possible behaviour. -/
def nodeMergeGo (setOrder : List String → List String) (cmt : String)
    (ce : Bool) (ipv : String → List IgnoreVal) :
    List (String × PValue) → Node → Except SgfError Node
  | [], acc => Except.ok acc
  | (pid, ov) :: rest, acc =>
    let ign := defaultIgnoreValues pid ++ ipv pid
    if scalarProperties.contains pid &&
        (ignoreContainsWildcard ign ||
          (match ov with
           | PValue.str s => ignoreContainsStr ign s
           | PValue.strs _ => false)) then
      nodeMergeGo setOrder cmt ce ipv rest acc
    else if pid = "C" then
      match ov with
      | PValue.str ovs =>
        match lookupProp acc "C" with
        | some (PValue.str cur) =>
          if cur ≠ "" then
            if pyStrip cur ≠ pyStrip ovs then
              if ce then
                nodeMergeGo setOrder cmt ce ipv rest
                  (setProp acc "C"
                    (PValue.str (pyStrip cur ++ "\n\n" ++ cmt ++ pyStrip ovs)))
              else
                nodeMergeGo setOrder cmt ce ipv rest
                  (setProp acc "C"
                    (PValue.str (pyStrip cur ++ "\n\n" ++ pyStrip ovs)))
            else nodeMergeGo setOrder cmt ce ipv rest acc
          else if ce then
            nodeMergeGo setOrder cmt ce ipv rest
              (setProp acc "C" (PValue.str (cmt ++ pyStrip ovs)))
          else
            nodeMergeGo setOrder cmt ce ipv rest
              (setProp acc "C" (PValue.str (pyStrip ovs)))
        | some (PValue.strs _) =>
          Except.error (SgfError.propertyError "scalar comment expected")
        | none =>
          if ce then
            nodeMergeGo setOrder cmt ce ipv rest
              (setProp acc "C" (PValue.str (cmt ++ pyStrip ovs)))
          else
            nodeMergeGo setOrder cmt ce ipv rest
              (setProp acc "C" (PValue.str (pyStrip ovs)))
      | PValue.strs _ =>
        Except.error (SgfError.propertyError "scalar comment expected")
    else
      match lookupProp acc pid with
      | some cur =>
        if scalarProperties.contains pid then
          if ov ≠ cur then
            match ov with
            | PValue.str ovs =>
              match mergeDifferingScalarPropertyValues acc pid ovs ign with
              | Except.ok acc2 => nodeMergeGo setOrder cmt ce ipv rest acc2
              | Except.error e => Except.error e
            | PValue.strs _ =>
              Except.error (SgfError.propertyError "scalar value expected")
          else nodeMergeGo setOrder cmt ce ipv rest acc
        else
          match cur, ov with
          | PValue.strs curList, PValue.strs ovList =>
            let newEntries :=
              (dedupKeepFirst ovList).filter (fun s => ¬ curList.contains s)
            if newEntries = [] then nodeMergeGo setOrder cmt ce ipv rest acc
            else
              nodeMergeGo setOrder cmt ce ipv rest
                (setProp acc pid (PValue.strs (curList ++ setOrder newEntries)))
          | _, _ => Except.error (SgfError.propertyError "list value expected")
      | none =>
        -- absent from target: copied by value (lists sliced, not aliased)
        nodeMergeGo setOrder cmt ce ipv rest (setProp acc pid ov)

/-- `Node.merge(other, comment, comments_everywhere,
ignore_property_values)`: deep-copy `other` (identity here) and fold its
properties into `self`.  A `comment` of `None` becomes the empty prefix,
otherwise `comment + '\n'`. -/
def nodeMerge (setOrder : List String → List String) (self other : Node)
    (comment : Option String) (ce : Bool)
    (ipv : String → List IgnoreVal) : Except SgfError Node :=
  nodeMergeGo setOrder (commentArg comment) ce ipv other self

/-! ## GameTree merge -/

/-- Outcome of `GameTree.merge`'s lockstep `for ... in zip(count, self,
other)` walk: either the loop `break`s at the first non-equivalent pair
(`diverged`, with the merged common prefix and both unconsumed tails,
which start at the divergent nodes), or the zip runs out (`exhausted`,
where at least one tail is empty). -/
inductive WalkResult where
  | diverged (pre sTail oTail : List Node)
  | exhausted (pre sTail oTail : List Node)

/-- The lockstep trunk walk: merge equivalent node pairs in place, stop at
the first divergence. -/
def walkTrunks (setOrder : List String → List String)
    (comment : Option String) (ce : Bool) (ipv : String → List IgnoreVal) :
    List Node → List Node → Except SgfError WalkResult
  | [], bs => Except.ok (WalkResult.exhausted [] [] bs)
  | a :: as, [] => Except.ok (WalkResult.exhausted [] (a :: as) [])
  | a :: as, b :: bs => do
    let eq ← nodeEquivalent a b
    if eq then do
      let m ← nodeMerge setOrder a b comment ce ipv
      let r ← walkTrunks setOrder comment ce ipv as bs
      match r with
      | WalkResult.diverged pre s o =>
        Except.ok (WalkResult.diverged (m :: pre) s o)
      | WalkResult.exhausted pre s o =>
        Except.ok (WalkResult.exhausted (m :: pre) s o)
    else
      Except.ok (WalkResult.diverged [] (a :: as) (b :: bs))

/-- `GameTree([Node(C='')])`: the placeholder branch the merge appends to a
branchless target before reconciling branches. -/
def dummyBranch : GameTree := GameTree.mk [[("C", PValue.str "")]] []

/-- The inner `for (i, other_branch) in enumerate(other.branches[:])` scan
of branch reconciliation, parameterized by the recursive merge `mrg`:
merge `sb` with the first source branch whose first node is equivalent to
`sb`'s first node (removing it from the source list), else leave `sb`
unchanged.  `branch[0]` on an empty trunk is an `IndexError`. -/
def matchOneGo (mrg : GameTree → GameTree → Except SgfError GameTree)
    (sb : GameTree) :
    List GameTree → Except SgfError (GameTree × List GameTree)
  | [] => Except.ok (sb, [])
  | ob :: obs =>
    match sb.trunk, ob.trunk with
    | s0 :: _, o0 :: _ => do
      let eq ← nodeEquivalent s0 o0
      if eq then do
        let sb2 ← mrg sb ob
        Except.ok (sb2, obs)
      else do
        match ← matchOneGo mrg sb obs with
        | (sb2, obs2) => Except.ok (sb2, ob :: obs2)
    | _, _ => Except.error SgfError.nodeIndexError

/-- The outer `for self_branch in self.branches[:]` loop of branch
reconciliation: returns the merged target branches and the source branches
left unmatched. -/
def matchBranchesGo (mrg : GameTree → GameTree → Except SgfError GameTree) :
    List GameTree → List GameTree →
    Except SgfError (List GameTree × List GameTree)
  | [], obs => Except.ok ([], obs)
  | sb :: sbs, obs => do
    match ← matchOneGo mrg sb obs with
    | (sb2, obs2) => do
      match ← matchBranchesGo mrg sbs obs2 with
      | (rest, obs3) => Except.ok (sb2 :: rest, obs3)

/-- `GameTree.merge(other, comment, comments_everywhere,
ignore_property_values)`, fuel-indexed (the fuel only bounds the
branch-reconciliation recursion depth; `gameTreeMerge` below supplies
enough for any input, as the theorems prove by never meeting `outOfFuel`).
`other` is deep-copied on entry (the identity here); the result is the
mutated `self`. -/
def gtMergeF (setOrder : List String → List String) :
    Nat → GameTree → GameTree → Option String → Bool →
    (String → List IgnoreVal) → Except SgfError GameTree
  | 0, _, _, _, _, _ => Except.error SgfError.outOfFuel
  | fuel + 1, GameTree.mk sTrunk sB, GameTree.mk oTrunk oB, comment, ce, ipv => do
    match ← walkTrunks setOrder comment ce ipv sTrunk oTrunk with
    | WalkResult.diverged pre sTail oTail =>
      -- make the rest of self & other into branches
      Except.ok (GameTree.mk pre
        [GameTree.mk sTail sB, mkGameTree oTail oB comment])
    | WalkResult.exhausted pre sTail oTail =>
      if sTrunk = [] ∧ sB = [] then
        -- `self` is empty; copy data from `other`, prefixing its first node
        match oTrunk with
        | o0 :: orest =>
          Except.ok (GameTree.mk (nodePrefixComment o0 comment :: orest) oB)
        | [] => Except.ok (GameTree.mk [] oB)
      else
        -- (`i == -1` with nonempty `self` and branchless `other` returns
        -- `self` unchanged; that is the `la > lb`, `oB = []` case below)
        let la := sTrunk.length
        let lb := oTrunk.length
        let convertSelf : Bool := decide (la > lb) && decide (oB ≠ [])
        let newTrunk := if convertSelf then pre else pre ++ sTail
        let sB1 := if convertSelf then [GameTree.mk sTail sB] else sB
        let oB1 := if lb > la then [mkGameTree oTail oB comment] else oB
        if oB1 = [] then Except.ok (GameTree.mk newTrunk sB1)
        else
          let sB2 := if sB1 = [] then [dummyBranch] else sB1
          match ← matchBranchesGo
              (fun a b => gtMergeF setOrder fuel a b comment ce ipv)
              sB2 oB1 with
          | (sB3, oLeft) =>
            Except.ok (GameTree.mk newTrunk
              (sB3 ++ treeListPrefixComment oLeft comment))

/-- `GameTree.merge` with fuel ample for its input (the merge recursion
strictly decreases the combined `treeSize` of the pair). -/
def gameTreeMerge (setOrder : List String → List String)
    (self other : GameTree) (comment : Option String) (ce : Bool)
    (ipv : String → List IgnoreVal) : Except SgfError GameTree :=
  gtMergeF setOrder (treeSize self + treeSize other + 1) self other comment ce ipv

/-! ## Normalizer -/

theorem treeSize_le_of_mem {b : GameTree} {bs : List GameTree}
    (h : b ∈ bs) : treeSize b ≤ treeSizeList bs := by
  induction bs with
  | nil => cases h
  | cons x xs ih =>
    rw [treeSizeList]
    rcases List.mem_cons.mp h with rfl | hx
    · omega
    · have := ih hx
      omega

/-- `GameTree.normalize()`: while exactly one branch exists, splice it into
the trunk; with two or more branches, normalize each branch; with none,
stop.  Fuel-indexed; `treeSize` fuel always suffices (each splice strictly
decreases `treeSize`). -/
def normalizeTreeF : Nat → GameTree → GameTree
  | 0, t => t
  | _ + 1, GameTree.mk trunk [] => GameTree.mk trunk []
  | fuel + 1, GameTree.mk trunk [b] =>
    normalizeTreeF fuel (GameTree.mk (trunk ++ b.trunk) b.branches)
  | fuel + 1, GameTree.mk trunk bs =>
    GameTree.mk trunk (bs.map (normalizeTreeF fuel))

/-- `GameTree.normalize()` with sufficient fuel. -/
def normalizeTree (t : GameTree) : GameTree := normalizeTreeF (treeSize t) t

/-- `Collection.normalize()`. -/
def collectionNormalize (c : Collection) : Collection := c.map normalizeTree

/-- `Collection.merge(other, comment, comments_everywhere,
ignore_property_values)`: both collections must hold exactly one game;
merge tree into tree, then normalize the whole target collection. -/
def collectionMerge (setOrder : List String → List String)
    (self other : Collection) (comment : Option String) (ce : Bool)
    (ipv : String → List IgnoreVal) : Except SgfError Collection :=
  match self, other with
  | [s], [o] =>
    (gameTreeMerge setOrder s o comment ce ipv).map
      (fun m => collectionNormalize [m])
  | self, _ =>
    if self.length ≠ 1 then
      Except.error (SgfError.mergeError
        "A multi-game collection cannot be merged (self)")
    else
      Except.error (SgfError.mergeError
        "A multi-game collection cannot be merged (other)")

/-! ## Byte-level serializer

`TEXT_ENCODING = 'UTF-8'` and `NAME_ENCODING = 'ASCII'`.  `bytes` objects
are `List Nat` with elements below 256. -/

/-- UTF-8 encoding of one character. -/
def utf8EncodeChar (c : Char) : List Nat :=
  let n := c.toNat
  if n < 128 then [n]
  else if n < 2048 then [192 + n / 64, 128 + n % 64]
  else if n < 65536 then
    [224 + n / 4096, 128 + (n / 64) % 64, 128 + n % 64]
  else
    [240 + n / 262144, 128 + (n / 4096) % 64, 128 + (n / 64) % 64,
     128 + n % 64]

/-- `bytes(s, 'UTF-8')`. -/
def utf8Encode (s : String) : List Nat := (s.toList.map utf8EncodeChar).flatten

/-- `bytes(s, 'ASCII')`: fails (`UnicodeEncodeError`) on any non-ASCII
character. -/
def asciiEncode (s : String) : Option (List Nat) :=
  if s.toList.all (fun c => c.toNat < 128) then
    some (s.toList.map Char.toNat)
  else none

/-- `Node.escape_text`: backslash-escape `\` and `]`.  (The source isolates
the characters with `re.split` on the pattern `(\\|\])`: every odd-indexed
part of such a split is exactly one escapable character and gets a
backslash prefix, so the effect is per-character escaping.) -/
def escapeText (s : String) : String :=
  String.mk (s.toList.foldr
    (fun c acc => if c = '\\' ∨ c = ']' then '\\' :: c :: acc else c :: acc)
    [])

/-- Encode one (escaped) property value in the encoding its property ID
selects. -/
def encodeValue (textProp : Bool) (s : String) : Option (List Nat) :=
  if textProp then some (utf8Encode (escapeText s))
  else asciiEncode (escapeText s)

/-- The per-property parts of `Node.__bytes__` (everything after the
leading `;`).  `none` models an encoding failure.  (A value whose
shape disagrees with the `list_properties` classification - which no
library-built node contains - is also mapped to `none`: Python would
iterate a string character-wise or render a list's `repr` there.) -/
def nodeBytesParts : Node → Option (List Nat)
  | [] => some []
  | (name, v) :: rest => do
    let nb ← asciiEncode name
    let isText := textProperties.contains name
    let body ←
      match v with
      | PValue.str s =>
        if listProperties.contains name then none
        else encodeValue isText s
      | PValue.strs vs =>
        if listProperties.contains name then do
          let parts ← vs.mapM (encodeValue isText)
          some (List.intercalate [93, 91] parts)
        else none
    let restB ← nodeBytesParts rest
    some (nb ++ [91] ++ body ++ [93] ++ restB)

/-- `Node.__bytes__`: `;` then each property as `ID[value]` /
`ID[v1][v2]...` in insertion order. -/
def nodeBytes (n : Node) : Option (List Nat) :=
  (nodeBytesParts n).map (fun parts => 59 :: parts)

mutual

/-- `GameTree.__bytes__`: `(`, each trunk node, each branch, `)`, joined by
single line breaks. -/
def treeBytes : GameTree → Option (List Nat)
  | GameTree.mk trunk bs => do
    let nodeParts ← trunk.mapM nodeBytes
    let branchParts ← treeListBytes bs
    some (List.intercalate [10] ([[40]] ++ nodeParts ++ branchParts ++ [[41]]))

/-- `bytes` of each branch of a list. -/
def treeListBytes : List GameTree → Option (List (List Nat))
  | [] => some []
  | t :: ts => do
    let b ← treeBytes t
    let rest ← treeListBytes ts
    some (b :: rest)

end

/-- `Collection.__bytes__`: game trees joined by a blank line. -/
def collectionBytes (c : Collection) : Option (List Nat) :=
  (treeListBytes c).map (List.intercalate [10, 10])

/-! ## Byte-level parser

The `Parser` class scans `self.data` with a single forward index; the
embedding consumes the remaining byte list instead, and threads the
`self.encoding` state (a codec name string, initially the class attribute
`'latin-1'`).  Regex patterns are transcribed directly:

* `\s` on bytes matches exactly space, `\t`, `\n`, `\r`, `\v`, `\f`;
* `game_tree_start = \s*\(`, `game_tree_end = \s*\)`,
  `game_tree_next = \s*(;|\(|\))`, `property_start = \s*\[` are anchored
  matches (whitespace consumed only on success);
* `node_contents = \s*([A-Za-z]+(?=\s*\[))` takes the maximal letter run
  (no shorter run can satisfy the lookahead, since the following character
  would be another letter) and leaves the lookahead unconsumed;
* `property_end = \]` and `escape = \\` are forward searches, realised in
  `scanValue` by first-hit scanning;
* `_convert_control_chars` is the identity (its body returns `text`
  unchanged).

Python's codec registry is modelled for the three codec names the library
itself uses: `'latin-1'` (the initial decoding), `'UTF-8'`
(`TEXT_ENCODING`) and `'ASCII'` (`NAME_ENCODING`); decoding under any
other name (reachable only through a charset declaration naming another
codec) is modelled as a failure. -/

/-- Parser errors, one constructor per exception class (plus fuel
exhaustion, proved unreachable for the supplied fuel by the theorems
below; decode errors model `UnicodeDecodeError`/`LookupError`). -/
inductive ParseErr where
  | endOfData
  | treeParse (msg : String)
  | nodeProperty
  | propertyValue
  | decodeError
  | outOfFuel
deriving DecidableEq

/-- Bytes matched by `\s` in a bytes-pattern. -/
def isWsByte (b : Nat) : Bool :=
  b = 32 || b = 9 || b = 10 || b = 13 || b = 11 || b = 12

/-- Bytes matched by `[A-Za-z]`. -/
def isLetterByte (b : Nat) : Bool :=
  (65 ≤ b && b ≤ 90) || (97 ≤ b && b ≤ 122)

/-- A UTF-8 continuation byte. -/
def isContByte (c : Nat) : Bool := 128 ≤ c && c ≤ 191

/-- Strict UTF-8 decoding (rejecting overlong forms and surrogates, as
Python's `'UTF-8'` codec does). -/
def utf8Multi (dec : List Nat → Option (List Char)) (b : Nat)
    (rest : List Nat) : Option (List Char) :=
  if 194 ≤ b && b ≤ 223 then
    match rest with
    | c :: rest2 =>
      if isContByte c then
        (dec rest2).map (fun cs => Char.ofNat ((b - 192) * 64 + (c - 128)) :: cs)
      else none
    | [] => none
  else if 224 ≤ b && b ≤ 239 then
    match rest with
    | c :: d :: rest2 =>
      if isContByte c && isContByte d &&
          (b ≠ 224 || 160 ≤ c) && (b ≠ 237 || c ≤ 159) then
        (dec rest2).map (fun cs =>
          Char.ofNat ((b - 224) * 4096 + (c - 128) * 64 + (d - 128)) :: cs)
      else none
    | _ => none
  else if 240 ≤ b && b ≤ 244 then
    match rest with
    | c :: d :: e :: rest2 =>
      if isContByte c && isContByte d && isContByte e &&
          (b ≠ 240 || 144 ≤ c) && (b ≠ 244 || c ≤ 143) then
        (dec rest2).map (fun cs =>
          Char.ofNat ((b - 240) * 262144 + (c - 128) * 4096 +
            (d - 128) * 64 + (e - 128)) :: cs)
      else none
    | _ => none
  else none

def utf8DecodeF : Nat → List Nat → Option (List Char)
  | 0, _ => none
  | _ + 1, [] => some []
  | fuel + 1, b :: rest =>
    if b < 128 then
      (utf8DecodeF fuel rest).map (fun cs => Char.ofNat b :: cs)
    else utf8Multi (fun l => utf8DecodeF fuel l) b rest

/-- Strict UTF-8 decoding of a whole byte string (each recursion layer
consumes at least one byte, so `length + 1` fuel always suffices). -/
def utf8DecodeGo (bs : List Nat) : Option (List Char) :=
  utf8DecodeF (bs.length + 1) bs

/-- `bytes.decode(encoding)` for the codec names the library uses. -/
def decodeBytes (enc : String) (bs : List Nat) : Option String :=
  if enc = "latin-1" then some (String.mk (bs.map Char.ofNat))
  else if enc = "UTF-8" then (utf8DecodeGo bs).map String.mk
  else if enc = "ASCII" then
    if bs.all (· < 128) then some (String.mk (bs.map Char.ofNat)) else none
  else none

/-- The body of `Parser.parse_property_value`'s escape-resolving scan of one
bracketed value, entered just after the `[`.  Returns the raw value bytes
and the remaining input after the closing `]`; `none` when no unescaped
`]` is found (`PropertyValueParseError`).  An escaped line break (CR, LF,
CR LF or LF CR) is deleted outright; any other escaped byte is copied
without its backslash. -/
def scanValue : List Nat → Option (List Nat × List Nat)
  | [] => none
  | b :: rest =>
    if b = 93 then some ([], rest)
    else if b = 92 then
      match rest with
      | [] => none
      | 13 :: 10 :: rest3 => scanValue rest3
      | 13 :: rest2 => scanValue rest2
      | 10 :: 13 :: rest3 => scanValue rest3
      | 10 :: rest2 => scanValue rest2
      | d :: rest2 =>
        match scanValue rest2 with
        | some (v, r) => some (d :: v, r)
        | none => none
    else
      match scanValue rest with
      | some (v, r) => some (b :: v, r)
      | none => none

/-- The collection loop of `Parser.parse_property_value`: zero or more
`\s*\[`-introduced values (whitespace consumed only when a `[` follows). -/
def parsePValsGo : Nat → List Nat → Except ParseErr (List (List Nat) × List Nat)
  | 0, _ => Except.error ParseErr.outOfFuel
  | fuel + 1, rest =>
    match rest.dropWhile isWsByte with
    | 91 :: rest3 =>
      match scanValue rest3 with
      | some (v, r) =>
        match parsePValsGo fuel r with
        | Except.ok (vs, r2) => Except.ok (v :: vs, r2)
        | Except.error e => Except.error e
      | none => Except.error ParseErr.propertyValue
    | _ => Except.ok ([], rest)

/-- `Parser.parse_property_value`: at least one bracketed value
(`PropertyValueParseError` otherwise). -/
def parsePVals (fuel : Nat) (rest : List Nat) :
    Except ParseErr (List (List Nat) × List Nat) :=
  match parsePValsGo fuel rest with
  | Except.ok ([], _) => Except.error ParseErr.propertyValue
  | Except.ok r => Except.ok r
  | Except.error e => Except.error e

/-- `Parser.parse_node`, entered after its `;`.  Accumulates properties into
`node`; ends (without consuming) at the first position not matching
`node_contents`; raises `EndOfDataParseError` if the input ends first.
Values of text properties are decoded with the current charset, all others
with `'ASCII'`; a `CA` property switches the charset to the declared name
and stores `TEXT_ENCODING` (`'UTF-8'`) as its value. -/
def parseNodeF : Nat → String → List Nat → Node →
    Except ParseErr (Node × String × List Nat)
  | 0, _, _, _ => Except.error ParseErr.outOfFuel
  | fuel + 1, enc, rest, node =>
    match rest with
    | [] => Except.error ParseErr.endOfData
    | _ :: _ =>
      let restW := rest.dropWhile isWsByte
      let idBytes := restW.takeWhile isLetterByte
      let afterId := restW.drop idBytes.length
      if idBytes = [] ∨ (afterId.dropWhile isWsByte).headD 0 ≠ 91 then
        Except.ok (node, enc, rest)
      else
        let pid := String.mk (idBytes.map Char.ofNat)
        match parsePVals fuel afterId with
        | Except.error e => Except.error e
        | Except.ok (pvlist, rest2) =>
          let decEnc := if textProperties.contains pid then enc else "ASCII"
          match pvlist.mapM (decodeBytes decEnc) with
          | none => Except.error ParseErr.decodeError
          | some decoded =>
            let value? : Option PValue :=
              if listProperties.contains pid then some (PValue.strs decoded)
              else
                match decoded with
                | [v] => some (PValue.str v)
                | _ => none
            match value? with
            | none => Except.error ParseErr.nodeProperty
            | some value =>
              let node2 :=
                match lookupProp node pid with
                | some old =>
                  -- duplicate property ID: a warning, then extend (list) or
                  -- blank-line concatenation (scalar)
                  if listProperties.contains pid then
                    match old, value with
                    | PValue.strs ol, PValue.strs nl =>
                      setProp node pid (PValue.strs (ol ++ nl))
                    | _, _ => node
                  else
                    match old, value with
                    | PValue.str os, PValue.str ns =>
                      setProp node pid (PValue.str (os ++ "\n\n" ++ ns))
                    | _, _ => node
                | none => setProp node pid value
              if pid = "CA" then
                match decoded with
                | enc2 :: _ =>
                  parseNodeF fuel enc2 rest2
                    (setProp node2 "CA" (PValue.str "UTF-8"))
                | [] => parseNodeF fuel enc rest2 node2
              else parseNodeF fuel enc rest2 node2

mutual

/-- `Parser.parse_game_tree`, entered after its `(`; `trunk` and `branches`
accumulate the `GameTree` under construction.  Reaching the end of input
returns the partial tree (the source's `while` loop simply ends and the
method returns `g`). -/
def parseGameTreeF : Nat → String → List Nat → List Node → List GameTree →
    Except ParseErr (GameTree × String × List Nat)
  | 0, _, _, _, _ => Except.error ParseErr.outOfFuel
  | fuel + 1, enc, rest, trunk, branches =>
    match rest with
    | [] => Except.ok (GameTree.mk trunk branches, enc, [])
    | _ :: _ =>
      match rest.dropWhile isWsByte with
      | 59 :: rest2 =>
        if branches ≠ [] then
          Except.error (ParseErr.treeParse "A node was encountered after a branch.")
        else
          match parseNodeF fuel enc rest2 [] with
          | Except.ok (n, enc2, rest3) =>
            parseGameTreeF fuel enc2 rest3 (trunk ++ [n]) branches
          | Except.error e => Except.error e
      | 40 :: rest2 =>
        match parseBranchesF fuel enc rest2 [] with
        | Except.ok (bs, enc2, rest3) =>
          parseGameTreeF fuel enc2 rest3 trunk bs
        | Except.error e => Except.error e
      | 41 :: rest2 => Except.ok (GameTree.mk trunk branches, enc, rest2)
      | _ => Except.error (ParseErr.treeParse "Past end of SGF.")

/-- `Parser.parse_branches`, entered after the first branch's `(`: parse
trees until a `)` is seen (peeked, not consumed), appending only truthy
(nonempty-trunk) trees, consuming each following branch's `(`; raises
`EndOfDataParseError` at end of input. -/
def parseBranchesF : Nat → String → List Nat → List GameTree →
    Except ParseErr (List GameTree × String × List Nat)
  | 0, _, _, _ => Except.error ParseErr.outOfFuel
  | fuel + 1, enc, rest, acc =>
    match rest with
    | [] => Except.error ParseErr.endOfData
    | _ :: _ =>
      match rest.dropWhile isWsByte with
      | 41 :: _ => Except.ok (acc, enc, rest)
      | _ =>
        match parseGameTreeF fuel enc rest [] [] with
        | Except.error e => Except.error e
        | Except.ok (g, enc2, rest2) =>
          let acc2 := if g.trunk ≠ [] then acc ++ [g] else acc
          match rest2.dropWhile isWsByte with
          | 40 :: rest3 => parseBranchesF fuel enc2 rest3 acc2
          | _ => parseBranchesF fuel enc2 rest2 acc2

end

/-- `Parser.parse_one_game`: consume `\s*\(` and parse a tree, or report
`none` (the source's `None`). -/
def parseOneGameF : Nat → String → List Nat →
    Except ParseErr (Option GameTree × String × List Nat)
  | 0, _, _ => Except.error ParseErr.outOfFuel
  | fuel + 1, enc, rest =>
    match rest with
    | [] => Except.ok (none, enc, rest)
    | _ :: _ =>
      match rest.dropWhile isWsByte with
      | 40 :: rest2 =>
        match parseGameTreeF fuel enc rest2 [] [] with
        | Except.ok (g, enc2, rest3) => Except.ok (some g, enc2, rest3)
        | Except.error e => Except.error e
      | _ => Except.ok (none, enc, rest)

/-- `Parser.parse`'s game loop: parse games until input ends or a falsy
result (`None`, or a tree with an empty trunk) stops the loop. -/
def parseLoopF : Nat → String → List Nat → Collection →
    Except ParseErr (Collection × String × List Nat)
  | 0, _, _, _ => Except.error ParseErr.outOfFuel
  | fuel + 1, enc, rest, acc =>
    match rest with
    | [] => Except.ok (acc, enc, rest)
    | _ :: _ =>
      match parseOneGameF fuel enc rest with
      | Except.error e => Except.error e
      | Except.ok (og, enc2, rest2) =>
        match og with
        | some g =>
          if g.trunk ≠ [] then parseLoopF fuel enc2 rest2 (acc ++ [g])
          else Except.ok (acc, enc2, rest2)
        | none => Except.ok (acc, enc2, rest2)

/-- `Parser(data).parse()`: run the game loop on the whole buffer with the
initial `'latin-1'` encoding.  The fuel `3 * data.length + 8` is ample:
every recursion layer either consumes input or is one of the boundedly
many non-consuming hand-offs between the loop functions. -/
def parseTop (data : List Nat) : Except ParseErr Collection :=
  match parseLoopF (3 * data.length + 8) "latin-1" data [] with
  | Except.ok (c, _, _) => Except.ok c
  | Except.error e => Except.error e

/-! ## Supporting lemmas -/

/-- Setting a key to the value it already has is the identity. -/
theorem setProp_lookup_self {n : Node} {pid : String} {v : PValue}
    (h : lookupProp n pid = some v) : setProp n pid v = n := by
  induction n with
  | nil => simp [lookupProp] at h
  | cons p rest ih =>
    obtain ⟨k, w⟩ := p
    by_cases hk : k = pid
    · subst hk
      simp [lookupProp] at h
      simp [setProp, h]
    · simp [lookupProp, hk] at h
      simp [setProp, hk, ih h]

theorem treeSize_pos (t : GameTree) : 1 ≤ treeSize t := by
  cases t with
  | mk trunk bs => simp [treeSize]; omega

/-! ## Claims -/

/-- C2: When merging two equivalent Nodes that both contain a scalar
identifier (such as `RE`) with differing values that are not ignore-listed,
not numerically equal within tolerance, and not case-insensitively equal
text (nor empty, nor is one absorbed by an ignore rule on the target's own
value - the spec's earlier "either value is empty"/"ignore-listed" bullets),
the merge raises a merge conflict error naming the identifier and both
differing values; supplying an ignore rule for that identifier with the
wildcard sentinel suppresses the error and the target keeps its own
value. -/
theorem c2_scalar_conflict_and_wildcard
    (ord : List String → List String) (self : Node) (pid v1 v2 : String)
    (cmt : Option String) (ce : Bool) (ipv : String → List IgnoreVal)
    (_hequiv : nodeEquivalent self [(pid, PValue.str v2)] = Except.ok true)
    (hscal : scalarProperties.contains pid = true)
    (hC : pid ≠ "C")
    (h1 : lookupProp self pid = some (PValue.str v1))
    (hne : v2 ≠ v1)
    (hw : ignoreContainsWildcard (defaultIgnoreValues pid ++ ipv pid) = false)
    (hv2 : ignoreContainsStr (defaultIgnoreValues pid ++ ipv pid) v2 = false)
    (hv1 : ignoreContainsStr (defaultIgnoreValues pid ++ ipv pid) v1 = false)
    (hne1 : v1 ≠ "") (hne2 : v2 ≠ "")
    (hreal : realProperties.contains pid = true →
      ∃ a b, parseFloat v1 = some a ∧ parseFloat v2 = some b ∧
        mathIsClose a b = false)
    (htext : textProperties.contains pid = true → pyLower v1 ≠ pyLower v2) :
    nodeMerge ord self [(pid, PValue.str v2)] cmt ce ipv
      = Except.error (SgfError.mergeConflict pid v1 v2) ∧
    nodeMerge ord self [(pid, PValue.str v2)] cmt ce
      (fun q => if q = pid then IgnoreVal.wildcard :: ipv q else ipv q)
      = Except.ok self := by
  have hdiff : mergeDifferingScalarPropertyValues self pid v2
      (defaultIgnoreValues pid ++ ipv pid)
      = Except.error (SgfError.mergeConflict pid v1 v2) := by
    rw [mergeDifferingScalarPropertyValues, h1]
    simp only [hv1, Bool.false_eq_true, if_false]
    rw [if_neg hne2, if_neg hne1]
    by_cases hr : realProperties.contains pid = true
    · obtain ⟨a, b, ha, hb, hclose⟩ := hreal hr
      rw [hr]
      simp only [if_pos rfl, ha, hb, hclose, Bool.false_eq_true, if_false]
      rw [if_neg (fun hcon : textProperties.contains pid = true ∧ pyLower v1 = pyLower v2 => htext hcon.1 hcon.2)]
      simp
    · simp only [hr, Bool.false_eq_true, if_false]
      rw [if_neg (fun hcon : textProperties.contains pid = true ∧ pyLower v1 = pyLower v2 => htext hcon.1 hcon.2)]
  constructor
  · rw [nodeMerge, nodeMergeGo]
    rw [if_neg, if_neg hC]
    · rw [h1]
      simp only [hscal, if_pos rfl]
      rw [hdiff, if_pos (fun hEq => hne (PValue.str.inj hEq))]
      simp
    · simp [hscal, hw, hv2]
  · rw [nodeMerge, nodeMergeGo]
    rw [if_pos]
    · rw [nodeMergeGo]
    · simp [ignoreContainsWildcard]
      simpa using hscal

/-- C2 witness: the spec's `RE` instance, `"B+Resign"` vs `"W+3.5"`. -/
theorem c2_witness :
    nodeMerge id [("RE", PValue.str "B+Resign")] [("RE", PValue.str "W+3.5")]
      none true noIgnores
      = Except.error (SgfError.mergeConflict "RE" "B+Resign" "W+3.5") ∧
    nodeMerge id [("RE", PValue.str "B+Resign")] [("RE", PValue.str "W+3.5")]
      none true
      (fun q => if q = "RE" then IgnoreVal.wildcard :: noIgnores q else noIgnores q)
      = Except.ok [("RE", PValue.str "B+Resign")] :=
  c2_scalar_conflict_and_wildcard id [("RE", PValue.str "B+Resign")]
    "RE" "B+Resign" "W+3.5" none true noIgnores
    (by decide) (by decide) (by decide) (by decide) (by decide)
    (by decide) (by decide) (by decide) (by decide) (by decide)
    (fun h => absurd h (by decide)) (by decide)

/-- C7 counterexample: the claim says merging `KM` values `"4.5"` and
`"4.50000001"` does not raise; on the code (via `math.isclose` with its
default relative tolerance `1e-09`) they differ by `1e-8`, more than
`4.5e-9`, so the merge raises the conflict. -/
theorem c7_counterexample :
    nodeMerge id [("KM", PValue.str "4.5")] [("KM", PValue.str "4.50000001")]
      none true noIgnores
      = Except.error (SgfError.mergeConflict "KM" "4.5" "4.50000001") := by
  rfl

/-- C7 (amended): when merging two equivalent Nodes sharing a numeric
(real-valued) identifier such as `KM` with differing textual values that
parse as floats and are not ignore-listed or empty, the merge keeps the
target's value and does not raise exactly when the two values are
numerically equal within `math.isclose`'s default relative tolerance
`1e-09`; otherwise (and when not case-insensitively equal text) it raises
the conflict.  In particular `"4.5"` vs `"4.500000001"` does not raise
while `"4.5"` vs `"4.50000001"` and `"4.5"` vs `"5.5"` do.  (`Node.merge`
itself assumes the nodes' equivalence was checked by its caller, so no
equivalence hypothesis is needed at the property level.) -/
theorem c7_numeric_tolerance
    (ord : List String → List String) (self : Node) (pid v1 v2 : String)
    (cmt : Option String) (ce : Bool) (ipv : String → List IgnoreVal)
    (a b : PyFloat)
    (hscal : scalarProperties.contains pid = true)
    (hC : pid ≠ "C")
    (h1 : lookupProp self pid = some (PValue.str v1))
    (hne : v2 ≠ v1)
    (hw : ignoreContainsWildcard (defaultIgnoreValues pid ++ ipv pid) = false)
    (hv2 : ignoreContainsStr (defaultIgnoreValues pid ++ ipv pid) v2 = false)
    (hv1 : ignoreContainsStr (defaultIgnoreValues pid ++ ipv pid) v1 = false)
    (hne1 : v1 ≠ "") (hne2 : v2 ≠ "")
    (hr : realProperties.contains pid = true)
    (ha : parseFloat v1 = some a) (hb : parseFloat v2 = some b) :
    (mathIsClose a b = true →
      nodeMerge ord self [(pid, PValue.str v2)] cmt ce ipv = Except.ok self) ∧
    (mathIsClose a b = false →
      (textProperties.contains pid = true → pyLower v1 ≠ pyLower v2) →
      nodeMerge ord self [(pid, PValue.str v2)] cmt ce ipv
        = Except.error (SgfError.mergeConflict pid v1 v2)) := by
  have hstep : ∀ r : Except SgfError Node,
      mergeDifferingScalarPropertyValues self pid v2
        (defaultIgnoreValues pid ++ ipv pid) = r →
      nodeMerge ord self [(pid, PValue.str v2)] cmt ce ipv =
        (match r with
         | Except.ok acc2 => Except.ok acc2
         | Except.error e => Except.error e) := by
    intro r hrw
    rw [nodeMerge, nodeMergeGo]
    rw [if_neg, if_neg hC]
    · rw [h1]
      simp only [hscal, if_pos rfl]
      rw [hrw, if_pos (fun hEq => hne (PValue.str.inj hEq))]
      cases r with
      | ok acc2 => rfl
      | error e => rfl
    · simp [hscal, hw, hv2]
  have hcommon :
      mergeDifferingScalarPropertyValues self pid v2
        (defaultIgnoreValues pid ++ ipv pid)
      = (if mathIsClose a b = true then Except.ok self
         else if textProperties.contains pid = true ∧ pyLower v1 = pyLower v2
           then Except.ok self
           else Except.error (SgfError.mergeConflict pid v1 v2)) := by
    rw [mergeDifferingScalarPropertyValues, h1]
    simp only [hv1, Bool.false_eq_true, if_false]
    rw [if_neg hne2, if_neg hne1, hr]
    simp only [if_pos rfl, ha, hb]
    simp
  constructor
  · intro hclose
    rw [hstep _ hcommon]
    rw [hclose]
    simp
  · intro hclose htext
    rw [hstep _ hcommon]
    rw [hclose]
    simp only [Bool.false_eq_true, if_false]
    rw [if_neg (fun hcon : textProperties.contains pid = true ∧ pyLower v1 = pyLower v2 => htext hcon.1 hcon.2)]

/-- C7 witness: `KM` `"4.5"` vs `"4.500000001"` merges without error
(keeping `"4.5"`), and `"4.5"` vs `"5.5"` raises the conflict. -/
theorem c7_witness :
    nodeMerge id [("KM", PValue.str "4.5")] [("KM", PValue.str "4.500000001")]
      none true noIgnores = Except.ok [("KM", PValue.str "4.5")] ∧
    nodeMerge id [("KM", PValue.str "4.5")] [("KM", PValue.str "5.5")]
      none true noIgnores
      = Except.error (SgfError.mergeConflict "KM" "4.5" "5.5") := by
  constructor
  · exact (c7_numeric_tolerance id [("KM", PValue.str "4.5")] "KM" "4.5"
      "4.500000001" none true noIgnores (PyFloat.mk 45 10)
      (PyFloat.mk 4500000001 1000000000)
      (by decide) (by decide) (by decide) (by decide) (by decide) (by decide)
      (by decide) (by decide) (by decide) (by decide) (by decide)
      (by decide)).1 (by decide)
  · exact (c7_numeric_tolerance id [("KM", PValue.str "4.5")] "KM" "4.5"
      "5.5" none true noIgnores (PyFloat.mk 45 10) (PyFloat.mk 55 10)
      (by decide) (by decide) (by decide) (by decide) (by decide) (by decide)
      (by decide) (by decide) (by decide) (by decide) (by decide)
      (by decide)).2 (by decide) (by decide)

/-- C6 counterexample: the claim requires the new source entries to be
appended in the source list's order; the code appends them in the
iteration order of a Python set.  With a set-iteration order reversing the
element list (a legitimate permutation, hence a possible CPython
behaviour), target `LB = ["aa:A"]` and source `LB = ["aa:A","bb:B","cc:C"]`
merge to `["aa:A","cc:C","bb:B"]`, not the claimed
`["aa:A","bb:B","cc:C"]`. -/
theorem c6_counterexample :
    (List.reverse ["bb:B", "cc:C"]).Perm ["bb:B", "cc:C"] ∧
    nodeMerge List.reverse [("LB", PValue.strs ["aa:A"])]
      [("LB", PValue.strs ["aa:A", "bb:B", "cc:C"])] none true noIgnores
      = Except.ok [("LB", PValue.strs ["aa:A", "cc:C", "bb:B"])] ∧
    ["aa:A", "cc:C", "bb:B"] ≠ ["aa:A", "bb:B", "cc:C"] :=
  ⟨by decide, by rfl, by decide⟩

/-- C6 (amended): for a list-valued identifier present in both Nodes, the
merged value is the target's existing list unchanged (original order kept,
internal duplicates not removed) followed by the set of source entries not
already present in the target (source-internal duplicates collapsed),
appended in the runtime's set-iteration order - an arbitrary permutation
of those entries; the source list's order is not guaranteed. -/
theorem c6_list_union
    (ord : List String → List String) (self : Node) (pid : String)
    (curList ovList : List String)
    (cmt : Option String) (ce : Bool) (ipv : String → List IgnoreVal)
    (_hl : listProperties.contains pid = true)
    (hs : scalarProperties.contains pid = false)
    (h1 : lookupProp self pid = some (PValue.strs curList))
    (hperm : (ord ((dedupKeepFirst ovList).filter
        (fun s => ¬ curList.contains s))).Perm
      ((dedupKeepFirst ovList).filter (fun s => ¬ curList.contains s))) :
    nodeMerge ord self [(pid, PValue.strs ovList)] cmt ce ipv
      = Except.ok (setProp self pid (PValue.strs
          (curList ++ ord ((dedupKeepFirst ovList).filter
            (fun s => ¬ curList.contains s))))) := by
  have hC : pid ≠ "C" := by
    intro h
    rw [h] at hs
    simp [scalarProperties] at hs
  rw [nodeMerge, nodeMergeGo]
  rw [if_neg, if_neg hC]
  · rw [h1]
    simp only [hs, Bool.false_eq_true, if_false]
    by_cases hemp : (dedupKeepFirst ovList).filter
        (fun s => ¬ curList.contains s) = []
    · rw [hemp] at hperm ⊢
      have hord : ord [] = [] := List.Perm.eq_nil hperm
      rw [hord, if_pos rfl]
      rw [nodeMergeGo]
      rw [List.append_nil, setProp_lookup_self h1]
    · rw [if_neg hemp]
      rw [nodeMergeGo]
  · intro hcond
    simp only [Bool.and_eq_true] at hcond
    rw [hs] at hcond
    exact Bool.false_ne_true hcond.1

/-- C6 witness: the spec's own instance, target `LB = ["aa:A"]`, source
`LB = ["aa:A","bb:B"]`, with the identity iteration order. -/
theorem c6_witness :
    nodeMerge id [("LB", PValue.strs ["aa:A"])]
      [("LB", PValue.strs ["aa:A", "bb:B"])] none true noIgnores
      = Except.ok (setProp [("LB", PValue.strs ["aa:A"])] "LB" (PValue.strs
          (["aa:A"] ++ id ((dedupKeepFirst ["aa:A", "bb:B"]).filter
            (fun s => ¬ ["aa:A"].contains s))))) :=
  c6_list_union id [("LB", PValue.strs ["aa:A"])] "LB" ["aa:A"]
    ["aa:A", "bb:B"] none true noIgnores
    (by decide) (by decide) (by decide) (by decide)

mutual

/-- Merge-normal form: a tree (and, recursively, each of its branches) has
either zero or at least two branches. -/
def isNormalTree : GameTree → Bool
  | GameTree.mk _ bs => decide (bs.length ≠ 1) && isNormalList bs

/-- `isNormalTree` over a branch list. -/
def isNormalList : List GameTree → Bool
  | [] => true
  | b :: bs => isNormalTree b && isNormalList bs

end

theorem isNormalList_mem {bs : List GameTree}
    (h : ∀ b ∈ bs, isNormalTree b = true) : isNormalList bs = true := by
  induction bs with
  | nil => rfl
  | cons b rest ih =>
    rw [isNormalList, Bool.and_eq_true]
    exact ⟨h b (List.mem_cons_self b rest), ih (fun x hx => h x (List.mem_cons_of_mem b hx))⟩

/-- With fuel at least `treeSize`, the normalizer always reaches merge-normal
form (each single-branch splice strictly decreases `treeSize`). -/
theorem normalizeTreeF_isNormal :
    ∀ fuel t, treeSize t ≤ fuel → isNormalTree (normalizeTreeF fuel t) = true := by
  intro fuel
  induction fuel with
  | zero =>
    intro t ht
    have := treeSize_pos t
    omega
  | succ k ih =>
    intro t ht
    match t with
    | GameTree.mk trunk [] => rfl
    | GameTree.mk trunk [b] =>
      rw [normalizeTreeF]
      apply ih
      cases b with
      | mk bt bb =>
        simp only [treeSize, treeSizeList, GameTree.trunk, GameTree.branches,
          List.length_append] at ht ⊢
        omega
    | GameTree.mk trunk (b1 :: b2 :: bs) =>
      rw [show normalizeTreeF (k + 1) (GameTree.mk trunk (b1 :: b2 :: bs))
          = GameTree.mk trunk ((b1 :: b2 :: bs).map (normalizeTreeF k)) from rfl]
      rw [isNormalTree, Bool.and_eq_true]
      constructor
      · simp
      · apply isNormalList_mem
        intro x hx
        obtain ⟨y, hy, rfl⟩ := List.mem_map.mp hx
        apply ih
        have h1 := treeSize_le_of_mem hy
        simp only [treeSize, treeSizeList] at ht h1
        omega

theorem normalizeTree_isNormal (t : GameTree) :
    isNormalTree (normalizeTree t) = true :=
  normalizeTreeF_isNormal (treeSize t) t (Nat.le_refl _)

/-- C10: after every successful `Collection.merge`, the target collection is
in normal form: every tree in it satisfies `isNormalTree` (zero or at least
two branches, recursively), because the merge ends by normalizing the
whole collection. -/
theorem c10_merge_normalizes
    (ord : List String → List String) (self other result : Collection)
    (cmt : Option String) (ce : Bool) (ipv : String → List IgnoreVal)
    (h : collectionMerge ord self other cmt ce ipv = Except.ok result) :
    ∀ t ∈ result, isNormalTree t = true := by
  intro t ht
  match self, other with
  | [s], [o] =>
    replace h : (gameTreeMerge ord s o cmt ce ipv).map
        (fun m => collectionNormalize [m]) = Except.ok result := h
    cases hm : gameTreeMerge ord s o cmt ce ipv with
    | ok m =>
      rw [hm] at h
      simp only [Except.map] at h
      have hres : result = [normalizeTree m] := by
        injection h with h2
        exact h2.symm
      rw [hres] at ht
      rcases List.mem_singleton.mp ht with rfl
      exact normalizeTree_isNormal m
    | error e =>
      rw [hm] at h
      simp [Except.map] at h
  | [], o => exact Except.noConfusion h
  | s1 :: s2 :: ss, o => exact Except.noConfusion h
  | [s], [] => exact Except.noConfusion h
  | [s], o1 :: o2 :: os => exact Except.noConfusion h

/-- C10 witness: a concrete successful merge whose result tree is in normal
form. -/
theorem c10_witness :
    isNormalTree (GameTree.mk [[("B", PValue.str "aa")],
      [("C", PValue.str ""), ("W", PValue.str "bb")]] []) = true :=
  c10_merge_normalizes id [GameTree.mk [[("B", PValue.str "aa")]] []]
    [GameTree.mk [[("B", PValue.str "aa")], [("W", PValue.str "bb")]] []]
    [GameTree.mk [[("B", PValue.str "aa")],
      [("C", PValue.str ""), ("W", PValue.str "bb")]] []]
    none true noIgnores (by rfl) _
    (List.mem_singleton.mpr rfl)

/-! ### Self-merge lemmas -/

theorem except_bind_ok {ε α β : Type} (a : α) (f : α → Except ε β) :
    (Except.ok a : Except ε α) >>= f = f a := rfl

theorem except_bind_error {ε α β : Type} (e : ε) (f : α → Except ε β) :
    (Except.error e : Except ε α) >>= f = Except.error e := rfl

theorem except_pure {ε α : Type} (a : α) :
    (pure a : Except ε α) = Except.ok a := rfl

theorem dedupKeepFirstAux_subset {x : String} :
    ∀ (l seen : List String), x ∈ dedupKeepFirstAux l seen → x ∈ l := by
  intro l
  induction l with
  | nil => intro seen h; cases h
  | cons a rest ih =>
    intro seen h
    rw [dedupKeepFirstAux] at h
    by_cases hs : seen.contains a = true
    · rw [if_pos hs] at h
      exact List.mem_cons_of_mem a (ih _ h)
    · rw [if_neg hs] at h
      rcases List.mem_cons.mp h with rfl | h2
      · exact List.mem_cons_self _ _
      · exact List.mem_cons_of_mem a (ih _ h2)

/-- The set difference of a list with itself is empty. -/
theorem dedup_filter_self (l : List String) :
    (dedupKeepFirst l).filter (fun s => ¬ l.contains s) = [] := by
  rw [List.filter_eq_nil_iff]
  intro a ha
  have hmem : a ∈ l := dedupKeepFirstAux_subset l [] ha
  simp [hmem]

/-- With distinct keys, every entry of a node is what lookup finds. -/
theorem lookupProp_of_mem_nodup :
    ∀ (n : Node), (keysOf n).Nodup →
      ∀ pv ∈ n, lookupProp n pv.1 = some pv.2 := by
  intro n
  induction n with
  | nil => intro _ pv h; cases h
  | cons q rest ih =>
    intro hnd pv hpv
    obtain ⟨k, v⟩ := q
    rw [keysOf] at hnd
    simp only [List.map_cons, List.nodup_cons] at hnd
    rcases List.mem_cons.mp hpv with rfl | h2
    · simp [lookupProp]
    · rw [lookupProp]
      have hk : k ≠ pv.1 := by
        intro hEq
        exact hnd.1 (hEq ▸ List.mem_map_of_mem Prod.fst h2)
      rw [if_neg hk]
      exact ih hnd.2 pv h2

/-- Value shapes under which `Node.merge` of a node with itself is the
identity: a string-valued property must be a scalar one (else Python would
treat the string as a character set, harmlessly - but a list-shaped
comment would crash), and `C` must be string-valued. -/
def mergeShapeOKb : String × PValue → Bool
  | (k, PValue.str _) => scalarProperties.contains k
  | (k, PValue.strs _) => decide (k ≠ "C")

theorem nodeMergeGo_self (ord : List String → List String) (ce : Bool)
    (ipv : String → List IgnoreVal) :
    ∀ (suffix : List (String × PValue)) (acc : Node),
      (∀ pv ∈ suffix, lookupProp acc pv.1 = some pv.2) →
      (∀ pv ∈ suffix, mergeShapeOKb pv = true) →
      nodeMergeGo ord "" ce ipv suffix acc = Except.ok acc := by
  intro suffix
  induction suffix with
  | nil => intro acc _ _; rfl
  | cons pv rest ih =>
    intro acc hlook hshape
    obtain ⟨pid, v⟩ := pv
    have hlook1 : lookupProp acc pid = some v :=
      hlook (pid, v) (List.mem_cons_self _ _)
    have hshape1 : mergeShapeOKb (pid, v) = true :=
      hshape (pid, v) (List.mem_cons_self _ _)
    have htail : nodeMergeGo ord "" ce ipv rest acc = Except.ok acc :=
      ih acc (fun q hq => hlook q (List.mem_cons_of_mem _ hq))
        (fun q hq => hshape q (List.mem_cons_of_mem _ hq))
    cases v with
    | str sv =>
      rw [nodeMergeGo]
      by_cases hskip : (scalarProperties.contains pid &&
          (ignoreContainsWildcard (defaultIgnoreValues pid ++ ipv pid) ||
            ignoreContainsStr (defaultIgnoreValues pid ++ ipv pid) sv)) = true
      · rw [if_pos hskip]
        exact htail
      · rw [if_neg hskip]
        by_cases hCpid : pid = "C"
        · subst hCpid
          rw [if_pos rfl, hlook1]
          by_cases hempty : sv = ""
          · subst hempty
            have hset : setProp acc "C" (PValue.str (pyStrip "")) = acc := by
              have h0 : pyStrip "" = "" := rfl
              rw [h0]
              exact setProp_lookup_self hlook1
            have hset2 : setProp acc "C" (PValue.str ("" ++ pyStrip "")) = acc := by
              have h0 : ("" ++ pyStrip "" : String) = "" := rfl
              rw [h0]
              exact setProp_lookup_self hlook1
            simp [hset, hset2, htail]
          · simp [hempty, htail]
        · rw [if_neg hCpid, hlook1]
          have hscal : pid ∈ scalarProperties := by simpa [mergeShapeOKb] using hshape1
          simp [hscal, htail]
    | strs vs =>
      rw [nodeMergeGo]
      by_cases hskip : (scalarProperties.contains pid &&
          (ignoreContainsWildcard (defaultIgnoreValues pid ++ ipv pid) ||
            false)) = true
      · rw [if_pos hskip]
        exact htail
      · rw [if_neg hskip]
        have hCpid : pid ≠ "C" := by simpa [mergeShapeOKb] using hshape1
        rw [if_neg hCpid, hlook1]
        by_cases hscal : pid ∈ scalarProperties
        · simp [hscal, htail]
        · simp [hscal, dedup_filter_self, htail]
          intro x hx hnx
          exact absurd (dedupKeepFirstAux_subset vs [] hx) hnx

/-- `Node.merge` of a node with (a deep copy of) itself, with no comment
prefix, is the identity. -/
theorem nodeMerge_self (ord : List String → List String) (ce : Bool)
    (ipv : String → List IgnoreVal) (n : Node)
    (hnodup : (keysOf n).Nodup)
    (hshape : ∀ pv ∈ n, mergeShapeOKb pv = true) :
    nodeMerge ord n n none ce ipv = Except.ok n := by
  rw [nodeMerge]
  exact nodeMergeGo_self ord ce ipv n n (lookupProp_of_mem_nodup n hnodup) hshape

theorem treePrefixComment_cons (n : Node) (r : List Node)
    (bs : List GameTree) (c : Option String) :
    treePrefixComment (GameTree.mk (n :: r) bs) c
      = GameTree.mk (nodePrefixComment n c :: r) bs := by
  by_cases hf : commentFalsy c = true
  · rw [treePrefixComment, if_pos hf, nodePrefixComment, if_pos hf]
  · rw [treePrefixComment, if_neg hf]

/-- C4 counterexample: with `n1` holding an empty comment and a comment
prefix supplied, the trunk node is not left as `n1`: merging the shared
`n1` with itself installs the prefix into the empty comment
(`comments_everywhere` defaults to on), so the result trunk differs from
the claimed `[n1]`. -/
theorem c4_counterexample :
    gameTreeMerge id
      (GameTree.mk [[("C", PValue.str "")], [("B", PValue.str "aa")]] [])
      (GameTree.mk [[("C", PValue.str "")], [("B", PValue.str "bb")]] [])
      (some "[[src]]") true noIgnores
      = Except.ok (GameTree.mk [[("C", PValue.str "[[src]]\n")]]
          [GameTree.mk [[("B", PValue.str "aa")]] [],
           GameTree.mk [[("B", PValue.str "bb"), ("C", PValue.str "[[src]]")]] []]) ∧
    [[("C", PValue.str "[[src]]\n")]] ≠ [[("C", PValue.str "")]] :=
  ⟨by rfl, by decide⟩

/-- C4 (amended): for single-trunk branchless trees `target = [n1, n2]` and
`source = [n1, n3]` with `n1` equivalent to itself and `n2` not equivalent
to `n3`, the merge truncates the target's trunk to `[m1]` - `n1` merged
with itself, which is `n1` itself whenever no comment prefix is supplied
(the original claim's `[n1]` can differ only through the prefix landing in
an empty comment of `n1`) - and sets the branch list to exactly
`[[n2], [n3-with-prefix]]`. -/
theorem c4_divergence_branching
    (ord : List String → List String) (n1 n2 n3 : Node) (pfx : Option String)
    (ce : Bool) (ipv : String → List IgnoreVal) (m1 : Node)
    (heq1 : nodeEquivalent n1 n1 = Except.ok true)
    (heq2 : nodeEquivalent n2 n3 = Except.ok false)
    (hm : nodeMerge ord n1 n1 pfx ce ipv = Except.ok m1) :
    gameTreeMerge ord (GameTree.mk [n1, n2] []) (GameTree.mk [n1, n3] [])
        pfx ce ipv
      = Except.ok (GameTree.mk [m1]
          [GameTree.mk [n2] [], GameTree.mk [nodePrefixComment n3 pfx] []]) ∧
    (pfx = none → (keysOf n1).Nodup →
      (∀ pv ∈ n1, mergeShapeOKb pv = true) → m1 = n1) := by
  have hwalk : walkTrunks ord pfx ce ipv [n1, n2] [n1, n3]
      = Except.ok (WalkResult.diverged [m1] [n2] [n3]) := by
    rw [walkTrunks]
    simp only [heq1, heq2, hm, except_bind_ok, if_true, walkTrunks]
    simp [except_bind_ok]
  constructor
  · have key : ∀ fuel, gtMergeF ord (fuel + 1)
        (GameTree.mk [n1, n2] []) (GameTree.mk [n1, n3] []) pfx ce ipv
        = Except.ok (GameTree.mk [m1]
            [GameTree.mk [n2] [], GameTree.mk [nodePrefixComment n3 pfx] []]) := by
      intro fuel
      rw [gtMergeF]
      rw [hwalk, except_bind_ok]
      simp [mkGameTree, treePrefixComment_cons]
    exact key _
  · intro hnone hnodup hshape
    rw [hnone] at hm
    rw [nodeMerge_self ord ce ipv n1 hnodup hshape] at hm
    injection hm with h2
    exact h2.symm

/-- C8 counterexample: with a branchless shorter target `[n1]` and a longer
branchless source `[n1, n2]`, the source tail is not discarded: the merge
appends a placeholder empty-comment branch to the target and merges the
source tail into it, so the target gains a branch holding the tail. -/
theorem c8_counterexample :
    gameTreeMerge id (GameTree.mk [[("B", PValue.str "aa")]] [])
      (GameTree.mk [[("B", PValue.str "aa")], [("W", PValue.str "bb")]] [])
      none true noIgnores
      = Except.ok (GameTree.mk [[("B", PValue.str "aa")]]
          [GameTree.mk [[("C", PValue.str ""), ("W", PValue.str "bb")]] []]) ∧
    GameTree.mk [[("B", PValue.str "aa")]]
        [GameTree.mk [[("C", PValue.str ""), ("W", PValue.str "bb")]] []]
      ≠ GameTree.mk [[("B", PValue.str "aa")]] [] :=
  ⟨by rfl, by decide⟩

/-- C8 (amended): when the trunk walk exhausts one trunk without divergence
on branchless trees, a longer target tail is retained in place (second
conjunct, as claimed); but a longer source tail is not discarded: the code
appends the placeholder branch `GameTree([Node(C='')])` to the branchless
target and merges the converted source tail into it, so the target gains a
branch whose node is the placeholder node merged with the source's extra
node (first conjunct). -/
theorem c8_trunk_exhaustion
    (ord : List String → List String) (n1 n2 : Node)
    (ce : Bool) (ipv : String → List IgnoreVal) (m1 md : Node)
    (heq1 : nodeEquivalent n1 n1 = Except.ok true)
    (heqd : nodeEquivalent [("C", PValue.str "")] n2 = Except.ok true)
    (hm1 : nodeMerge ord n1 n1 none ce ipv = Except.ok m1)
    (hmd : nodeMerge ord [("C", PValue.str "")] n2 none ce ipv = Except.ok md) :
    gameTreeMerge ord (GameTree.mk [n1] []) (GameTree.mk [n1, n2] [])
        none ce ipv
      = Except.ok (GameTree.mk [m1] [GameTree.mk [md] []]) ∧
    gameTreeMerge ord (GameTree.mk [n1, n2] []) (GameTree.mk [n1] [])
        none ce ipv
      = Except.ok (GameTree.mk [m1, n2] []) := by
  have hwalk1 : walkTrunks ord none ce ipv [n1] [n1, n2]
      = Except.ok (WalkResult.exhausted [m1] [] [n2]) := by
    rw [walkTrunks]
    simp only [heq1, hm1, except_bind_ok, if_true, walkTrunks]
  have hwalk2 : walkTrunks ord none ce ipv [n1, n2] [n1]
      = Except.ok (WalkResult.exhausted [m1] [n2] []) := by
    rw [walkTrunks]
    simp only [heq1, hm1, except_bind_ok, if_true, walkTrunks]
  have hinner : ∀ fuel, gtMergeF ord (fuel + 1)
      (GameTree.mk [[("C", PValue.str "")]] []) (GameTree.mk [n2] [])
      none ce ipv = Except.ok (GameTree.mk [md] []) := by
    intro fuel
    have hw : walkTrunks ord none ce ipv [[("C", PValue.str "")]] [n2]
        = Except.ok (WalkResult.exhausted [md] [] []) := by
      rw [walkTrunks]
      simp only [heqd, hmd, except_bind_ok, if_true, walkTrunks]
    rw [gtMergeF]
    rw [hw, except_bind_ok]
    simp
  constructor
  · have key : ∀ fuel, gtMergeF ord (fuel + 2)
        (GameTree.mk [n1] []) (GameTree.mk [n1, n2] []) none ce ipv
        = Except.ok (GameTree.mk [m1] [GameTree.mk [md] []]) := by
      intro fuel
      rw [show fuel + 2 = (fuel + 1) + 1 from rfl, gtMergeF]
      rw [hwalk1, except_bind_ok]
      simp only []
      rw [show (mkGameTree [n2] [] none) = GameTree.mk [n2] [] from rfl]
      simp only [matchBranchesGo, matchOneGo, GameTree.trunk, dummyBranch]
      rw [heqd, except_bind_ok]
      simp only [if_true]
      rw [hinner fuel, except_bind_ok]
      rfl
    exact key _
  · have key : ∀ fuel, gtMergeF ord (fuel + 1)
        (GameTree.mk [n1, n2] []) (GameTree.mk [n1] []) none ce ipv
        = Except.ok (GameTree.mk [m1, n2] []) := by
      intro fuel
      rw [gtMergeF]
      rw [hwalk2, except_bind_ok]
      simp
    exact key _

theorem c4_witness :
    gameTreeMerge id
      (GameTree.mk [[("C", PValue.str "")], [("B", PValue.str "aa")]] [])
      (GameTree.mk [[("C", PValue.str "")], [("B", PValue.str "bb")]] [])
      none true noIgnores
      = Except.ok (GameTree.mk [[("C", PValue.str "")]]
          [GameTree.mk [[("B", PValue.str "aa")]] [],
           GameTree.mk [nodePrefixComment [("B", PValue.str "bb")] none] []]) ∧
    (none = (none : Option String) →
      (keysOf [("C", PValue.str "")]).Nodup →
      (∀ pv ∈ [("C", PValue.str "")], mergeShapeOKb pv = true) →
      [("C", PValue.str "")] = [("C", PValue.str "")]) :=
  c4_divergence_branching id [("C", PValue.str "")] [("B", PValue.str "aa")]
    [("B", PValue.str "bb")] none true noIgnores [("C", PValue.str "")]
    (by rfl) (by rfl) (by rfl)

theorem c8_witness :
    gameTreeMerge id (GameTree.mk [[("B", PValue.str "aa")]] [])
        (GameTree.mk [[("B", PValue.str "aa")], [("W", PValue.str "bb")]] [])
        none true noIgnores
      = Except.ok (GameTree.mk [[("B", PValue.str "aa")]]
          [GameTree.mk [[("C", PValue.str ""), ("W", PValue.str "bb")]] []]) ∧
    gameTreeMerge id
        (GameTree.mk [[("B", PValue.str "aa")], [("W", PValue.str "bb")]] [])
        (GameTree.mk [[("B", PValue.str "aa")]] []) none true noIgnores
      = Except.ok
          (GameTree.mk [[("B", PValue.str "aa")], [("W", PValue.str "bb")]] []) :=
  c8_trunk_exhaustion id [("B", PValue.str "aa")] [("W", PValue.str "bb")]
    true noIgnores [("B", PValue.str "aa")]
    [("C", PValue.str ""), ("W", PValue.str "bb")]
    (by rfl) (by rfl) (by rfl) (by rfl)

/-- A node the merge engine handles without surprises: distinct property
keys, merge-identity value shapes, and self-equivalence (a move node has
exactly one player property, so `Node.equivalent` does not raise). -/
def legalNodeB (n : Node) : Bool :=
  decide (keysOf n).Nodup && n.all mergeShapeOKb &&
    decide (nodeEquivalent n n = Except.ok true)

mutual

/-- A legally-structured tree: every trunk node is legal and every branch
is legal with a nonempty trunk (`Parser.parse` never builds an empty
branch, and `GameTree.merge` indexes `branch[0]`). -/
def legalTreeB : GameTree → Bool
  | GameTree.mk trunk bs => trunk.all legalNodeB && legalListB bs

/-- `legalTreeB` over a branch list, each branch with a nonempty trunk. -/
def legalListB : List GameTree → Bool
  | [] => true
  | b :: bs => decide (b.trunk ≠ []) && legalTreeB b && legalListB bs

end

theorem legalNodeB_nodup {n : Node} (h : legalNodeB n = true) :
    (keysOf n).Nodup := by
  simp only [legalNodeB, Bool.and_eq_true, decide_eq_true_eq] at h
  exact h.1.1

theorem legalNodeB_shape {n : Node} (h : legalNodeB n = true) :
    ∀ pv ∈ n, mergeShapeOKb pv = true := by
  simp only [legalNodeB, Bool.and_eq_true, List.all_eq_true] at h
  exact h.1.2

theorem legalNodeB_equiv {n : Node} (h : legalNodeB n = true) :
    nodeEquivalent n n = Except.ok true := by
  simp only [legalNodeB, Bool.and_eq_true, decide_eq_true_eq] at h
  exact h.2

theorem legalTreeB_parts (trunk : List Node) (bs : List GameTree)
    (h : legalTreeB (GameTree.mk trunk bs) = true) :
    (∀ n ∈ trunk, legalNodeB n = true) ∧ legalListB bs = true := by
  rw [legalTreeB] at h
  simp only [Bool.and_eq_true, List.all_eq_true] at h
  exact h

theorem legalListB_mem :
    ∀ bs : List GameTree, legalListB bs = true →
      ∀ b ∈ bs, b.trunk ≠ [] ∧ legalTreeB b = true := by
  intro bs
  induction bs with
  | nil => intro _ b hb; cases hb
  | cons x xs ih =>
    intro h b hb
    rw [legalListB] at h
    simp only [Bool.and_eq_true, decide_eq_true_eq] at h
    rcases List.mem_cons.mp hb with rfl | h2
    · exact ⟨h.1.1, h.1.2⟩
    · exact ih h.2 b h2

theorem nodeMerge_self_of_legal (ord : List String → List String) (ce : Bool)
    (ipv : String → List IgnoreVal) {n : Node} (h : legalNodeB n = true) :
    nodeMerge ord n n none ce ipv = Except.ok n :=
  nodeMerge_self ord ce ipv n (legalNodeB_nodup h) (legalNodeB_shape h)

/-- The lockstep trunk walk of a legal trunk against itself merges every
pair in place and exhausts both sides. -/
theorem walkTrunks_self (ord : List String → List String) (ce : Bool)
    (ipv : String → List IgnoreVal) :
    ∀ tr : List Node, (∀ n ∈ tr, legalNodeB n = true) →
      walkTrunks ord none ce ipv tr tr
        = Except.ok (WalkResult.exhausted tr [] []) := by
  intro tr
  induction tr with
  | nil => intro _; rfl
  | cons a rest ih =>
    intro h
    have ha := h a (List.mem_cons_self _ _)
    have heq := legalNodeB_equiv ha
    have hm := nodeMerge_self_of_legal ord ce ipv ha
    rw [walkTrunks]
    simp [heq, hm, except_bind_ok,
      ih (fun n hn => h n (List.mem_cons_of_mem _ hn))]

/-- A branch whose first node is self-equivalent matches itself at the head
of the source branch list. -/
theorem matchOneGo_head (mrg : GameTree → GameTree → Except SgfError GameTree)
    (sb : GameTree) (obs : List GameTree) (s0 : Node) (r : List Node)
    (htr : sb.trunk = s0 :: r)
    (heq : nodeEquivalent s0 s0 = Except.ok true)
    (hm : mrg sb sb = Except.ok sb) :
    matchOneGo mrg sb (sb :: obs) = Except.ok (sb, obs) := by
  rw [matchOneGo, htr]
  simp [heq, hm, except_bind_ok]

/-- Branch reconciliation of a legal branch list against itself pairs each
branch with its own copy and consumes the whole source list. -/
theorem matchBranchesGo_self
    (mrg : GameTree → GameTree → Except SgfError GameTree) :
    ∀ bs : List GameTree,
      (∀ b ∈ bs, (∃ s0 r, b.trunk = s0 :: r ∧
          nodeEquivalent s0 s0 = Except.ok true) ∧ mrg b b = Except.ok b) →
      matchBranchesGo mrg bs bs = Except.ok (bs, []) := by
  intro bs
  induction bs with
  | nil => intro _; rfl
  | cons b rest ih =>
    intro h
    obtain ⟨⟨s0, r, htr, heq⟩, hm⟩ := h b (List.mem_cons_self _ _)
    rw [matchBranchesGo]
    rw [matchOneGo_head mrg b rest s0 r htr heq hm, except_bind_ok]
    simp only []
    rw [ih (fun x hx => h x (List.mem_cons_of_mem _ hx)), except_bind_ok]

/-- Merging a legal tree with a deep copy of itself, with no comment prefix,
is the identity, for any sufficient fuel. -/
theorem gtMergeF_self (ord : List String → List String) (ce : Bool)
    (ipv : String → List IgnoreVal) :
    ∀ (N : Nat) (t : GameTree), treeSize t ≤ N → legalTreeB t = true →
      ∀ fuel, treeSize t ≤ fuel →
        gtMergeF ord fuel t t none ce ipv = Except.ok t := by
  intro N
  induction N with
  | zero =>
    intro t ht _ _ _
    exact absurd ht (by have := treeSize_pos t; omega)
  | succ N ih =>
    intro t ht hleg fuel hfuel
    obtain ⟨trunk, bs⟩ := t
    have hts : treeSize (GameTree.mk trunk bs)
        = trunk.length + 1 + treeSizeList bs := rfl
    obtain ⟨f, rfl⟩ : ∃ f, fuel = f + 1 := by
      cases fuel with
      | zero =>
        exfalso
        have := treeSize_pos (GameTree.mk trunk bs)
        omega
      | succ f => exact ⟨f, rfl⟩
    obtain ⟨htrunk, hbs⟩ := legalTreeB_parts trunk bs hleg
    have hwalk := walkTrunks_self ord ce ipv trunk htrunk
    rw [gtMergeF.eq_def]
    simp only []
    rw [hwalk, except_bind_ok]
    simp only []
    by_cases hemp : trunk = [] ∧ bs = []
    · rw [if_pos hemp]
      obtain ⟨h1, h2⟩ := hemp
      subst h1; subst h2
      rfl
    · rw [if_neg hemp]
      by_cases hbse : bs = []
      · subst hbse
        simp
      · have hmatch : matchBranchesGo
            (fun a b => gtMergeF ord f a b none ce ipv) bs bs
            = Except.ok (bs, []) := by
          apply matchBranchesGo_self
          intro b hb
          obtain ⟨htne, hlegb⟩ := legalListB_mem bs hbs b hb
          have hsz := treeSize_le_of_mem hb
          refine ⟨?_, ih b (by omega) hlegb f (by omega)⟩
          obtain ⟨s0, r, hbr⟩ : ∃ s0 r, b.trunk = s0 :: r := by
            cases hb2 : b.trunk with
            | nil => exact absurd hb2 htne
            | cons x xs => exact ⟨x, xs, rfl⟩
          refine ⟨s0, r, hbr, ?_⟩
          obtain ⟨tr2, bs2⟩ := b
          obtain ⟨htr2, _⟩ := legalTreeB_parts tr2 bs2 hlegb
          have hs0 : s0 ∈ tr2 := by
            have : tr2 = s0 :: r := hbr
            rw [this]
            exact List.mem_cons_self _ _
          exact legalNodeB_equiv (htr2 s0 hs0)
        simp [hbse, hmatch, except_bind_ok, treeListPrefixComment]

/-- C3: merging a deep copy of a legally-structured tree `T` into `T`, with
no comment prefix, leaves `T` unchanged: trunk, branches and every node's
properties are identical to before the call (self-merge cannot trigger a
conflict or an ignore rule, since every value meets its own copy). -/
theorem c3_self_merge_identity (ord : List String → List String) (ce : Bool)
    (ipv : String → List IgnoreVal) (t : GameTree)
    (hlegal : legalTreeB t = true) :
    gameTreeMerge ord t t none ce ipv = Except.ok t := by
  rw [gameTreeMerge]
  exact gtMergeF_self ord ce ipv (treeSize t) t le_rfl hlegal
    (treeSize t + treeSize t + 1) (by omega)

theorem c3_witness :
    gameTreeMerge id
      (GameTree.mk [[("B", PValue.str "aa")], [("W", PValue.str "bb")]]
        [GameTree.mk [[("B", PValue.str "cc")]] [],
         GameTree.mk [[("B", PValue.str "dd"), ("C", PValue.str "hello")]] []])
      (GameTree.mk [[("B", PValue.str "aa")], [("W", PValue.str "bb")]]
        [GameTree.mk [[("B", PValue.str "cc")]] [],
         GameTree.mk [[("B", PValue.str "dd"), ("C", PValue.str "hello")]] []])
      none true noIgnores
      = Except.ok
        (GameTree.mk [[("B", PValue.str "aa")], [("W", PValue.str "bb")]]
          [GameTree.mk [[("B", PValue.str "cc")]] [],
           GameTree.mk [[("B", PValue.str "dd"), ("C", PValue.str "hello")]] []]) :=
  c3_self_merge_identity id true noIgnores
    (GameTree.mk [[("B", PValue.str "aa")], [("W", PValue.str "bb")]]
      [GameTree.mk [[("B", PValue.str "cc")]] [],
       GameTree.mk [[("B", PValue.str "dd"), ("C", PValue.str "hello")]] []])
    (by rfl)

/-- C9 counterexample: an unmatched `(` does not always raise an
end-of-data error.  Input `\"(\"` (ending immediately after the `(`)
raises nothing: the partial tree has an empty trunk, so `parse`'s
`if game:` test stops the loop and an empty collection is returned
silently.  Input `\"( \"` raises `TreeParseError('Past end of SGF.')`,
not the end-of-data error. -/
theorem c9_counterexample :
    parseTop [40] = Except.ok [] ∧
    parseTop [40, 32] = Except.error (ParseErr.treeParse "Past end of SGF.") ∧
    ParseErr.treeParse "Past end of SGF." ≠ ParseErr.endOfData :=
  ⟨by rfl, by rfl, by decide⟩

/-- C9 (amended): reaching the end of input at a node boundary inside
`parse_game_tree` returns the partially built tree instead of raising
(first conjunct); the caller then either keeps it as a game or, for an
empty trunk, ends the game loop silently.  End-of-data errors do arise
from truncation inside a node (second conjunct: `parse_node` raises when
input ends before the node's content does) and inside a branch list (third
conjunct), e.g. `\"((;B[aa])\"`, truncated after its branch but before
the outer tree's `)` (fourth conjunct), or `\"(;B[aa]\"`, truncated
right after a complete property (fifth conjunct). -/
theorem c9_truncation_behaviour :
    (∀ (fuel : Nat) (enc : String) (trunk : List Node)
        (branches : List GameTree),
      parseGameTreeF (fuel + 1) enc [] trunk branches
        = Except.ok (GameTree.mk trunk branches, enc, [])) ∧
    (∀ (fuel : Nat) (enc : String) (node : Node),
      parseNodeF (fuel + 1) enc [] node = Except.error ParseErr.endOfData) ∧
    (∀ (fuel : Nat) (enc : String) (acc : List GameTree),
      parseBranchesF (fuel + 1) enc [] acc
        = Except.error ParseErr.endOfData) ∧
    parseTop [40, 40, 59, 66, 91, 97, 97, 93, 41]
      = Except.error ParseErr.endOfData ∧
    parseTop [40, 59, 66, 91, 97, 97, 93]
      = Except.error ParseErr.endOfData :=
  ⟨fun _ _ _ _ => rfl, fun _ _ _ => rfl, fun _ _ _ => rfl, by rfl, by rfl⟩

/-! ## Serialize-parse round trip -/

/-- The character-level effect of `escape_text` (`escapeText s =
String.mk (escChars s.toList)` by definition). -/
def escChars (cs : List Char) : List Char :=
  cs.foldr (fun c acc => if c = '\\' ∨ c = ']' then '\\' :: c :: acc else c :: acc) []

theorem escapeText_eq (s : String) :
    escapeText s = String.mk (escChars s.toList) := rfl

theorem uint32_mk_eq (u : UInt32) (bv : BitVec 32)
    (h : bv = u.toBitVec) : UInt32.mk bv = u := by
  cases u
  cases h
  rfl

theorem char_ofNat_toNat (c : Char) (h : c.toNat < 128) :
    Char.ofNat c.toNat = c := by
  have hv : Nat.isValidChar c.toNat := Or.inl (by omega)
  apply Char.eq_of_val_eq
  rw [Char.ofNat, dif_pos hv, Char.ofNatAux]
  apply uint32_mk_eq
  apply BitVec.eq_of_toNat_eq
  rw [BitVec.toNat_ofNatLt]
  rfl

theorem map_ofNat_toNat (cs : List Char) (h : ∀ c ∈ cs, c.toNat < 128) :
    (cs.map Char.toNat).map Char.ofNat = cs := by
  induction cs with
  | nil => rfl
  | cons c rest ih =>
    simp only [List.map_cons, List.cons.injEq]
    exact ⟨char_ofNat_toNat c (h c (List.mem_cons_self _ _)),
      ih (fun x hx => h x (List.mem_cons_of_mem _ hx))⟩

theorem utf8DecodeF_ascii : ∀ (cs : List Char),
    (∀ c ∈ cs, c.toNat < 128) → ∀ fuel, cs.length + 1 ≤ fuel →
      utf8DecodeF fuel (cs.map Char.toNat) = some cs := by
  intro cs
  induction cs with
  | nil =>
    intro _ fuel hf
    obtain ⟨f, rfl⟩ : ∃ f, fuel = f + 1 := ⟨fuel - 1, by omega⟩
    rfl
  | cons c rest ih =>
    intro h fuel hf
    obtain ⟨f, rfl⟩ : ∃ f, fuel = f + 1 := ⟨fuel - 1, by omega⟩
    have hc := h c (List.mem_cons_self _ _)
    have hlen : rest.length + 1 ≤ f := by
      simp only [List.length_cons] at hf
      omega
    rw [List.map_cons, utf8DecodeF, if_pos hc,
      ih (fun x hx => h x (List.mem_cons_of_mem _ hx)) f hlen,
      char_ofNat_toNat c hc]
    rfl

theorem utf8DecodeGo_ascii (cs : List Char) (h : ∀ c ∈ cs, c.toNat < 128) :
    utf8DecodeGo (cs.map Char.toNat) = some cs := by
  rw [utf8DecodeGo, List.length_map]
  exact utf8DecodeF_ascii cs h (cs.length + 1) le_rfl

/-- Decoding the ASCII bytes of a string under any encoding the parser can
be in is the identity. -/
theorem decodeBytes_ascii (enc : String)
    (henc : enc = "latin-1" ∨ enc = "UTF-8" ∨ enc = "ASCII")
    (cs : List Char) (h : ∀ c ∈ cs, c.toNat < 128) :
    decodeBytes enc (cs.map Char.toNat) = some (String.mk cs) := by
  rcases henc with rfl | rfl | rfl
  · rw [decodeBytes, if_pos rfl, map_ofNat_toNat cs h]
  · rw [decodeBytes, if_neg (by decide), if_pos rfl,
      utf8DecodeGo_ascii cs h]
    rfl
  · rw [decodeBytes, if_neg (by decide), if_neg (by decide), if_pos rfl,
      if_pos (by
        rw [List.all_eq_true]
        intro b hb
        obtain ⟨c, hc, rfl⟩ := List.mem_map.mp hb
        exact decide_eq_true (h c hc)), map_ofNat_toNat cs h]

theorem utf8EncodeChars_ascii (cs : List Char)
    (h : ∀ c ∈ cs, c.toNat < 128) :
    (cs.map utf8EncodeChar).flatten = cs.map Char.toNat := by
  induction cs with
  | nil => rfl
  | cons c rest ih =>
    rw [List.map_cons, List.flatten_cons,
      show utf8EncodeChar c = [c.toNat] by
        rw [utf8EncodeChar]
        exact if_pos (h c (List.mem_cons_self _ _)),
      ih (fun x hx => h x (List.mem_cons_of_mem _ hx))]
    rfl

theorem utf8Encode_ascii (s : String) (h : ∀ c ∈ s.toList, c.toNat < 128) :
    utf8Encode s = s.toList.map Char.toNat := by
  rw [utf8Encode]
  exact utf8EncodeChars_ascii s.toList h

theorem asciiEncode_ascii (s : String) (h : ∀ c ∈ s.toList, c.toNat < 128) :
    asciiEncode s = some (s.toList.map Char.toNat) := by
  rw [asciiEncode, if_pos]
  rw [List.all_eq_true]
  intro c hc
  exact decide_eq_true (h c hc)

theorem escChars_cons (a : Char) (cs : List Char) :
    escChars (a :: cs) = if a = '\\' ∨ a = ']' then '\\' :: a :: escChars cs
      else a :: escChars cs := rfl

theorem escChars_ascii (cs : List Char) (h : ∀ c ∈ cs, c.toNat < 128) :
    ∀ c ∈ escChars cs, c.toNat < 128 := by
  induction cs with
  | nil => intro c hc; cases hc
  | cons a rest ih =>
    intro c hc
    have ha := h a (List.mem_cons_self _ _)
    have htl := ih (fun x hx => h x (List.mem_cons_of_mem _ hx))
    rw [escChars_cons] at hc
    by_cases hesc : a = '\\' ∨ a = ']'
    · rw [if_pos hesc] at hc
      simp only [List.mem_cons] at hc
      rcases hc with rfl | rfl | hc
      · decide
      · exact ha
      · exact htl c hc
    · rw [if_neg hesc] at hc
      simp only [List.mem_cons] at hc
      rcases hc with rfl | hc
      · exact ha
      · exact htl c hc

theorem scanValue_close (r : List Nat) :
    scanValue (93 :: r) = some ([], r) := by
  rw [scanValue.eq_def]
  simp

theorem scanValue_esc92 (T : List Nat) :
    scanValue (92 :: 92 :: T) = (match scanValue T with
      | some (v, r) => some (92 :: v, r) | none => none) := by
  rw [scanValue.eq_def]
  simp

theorem scanValue_esc93 (T : List Nat) :
    scanValue (92 :: 93 :: T) = (match scanValue T with
      | some (v, r) => some (93 :: v, r) | none => none) := by
  rw [scanValue.eq_def]
  simp

theorem scanValue_plain (b : Nat) (h93 : b ≠ 93) (h92 : b ≠ 92)
    (T : List Nat) :
    scanValue (b :: T) = (match scanValue T with
      | some (v, r) => some (b :: v, r) | none => none) := by
  rw [scanValue.eq_def]
  simp [h93, h92]

/-- `scanValue` inverts `escape_text`: scanning the escaped bytes of a
value followed by the closing `]` recovers the value bytes exactly. -/
theorem scanValue_round (cs : List Char) (h : ∀ c ∈ cs, c.toNat < 128) :
    ∀ rest : List Nat,
      scanValue ((escChars cs).map Char.toNat ++ 93 :: rest)
        = some (cs.map Char.toNat, rest) := by
  induction cs with
  | nil =>
    intro rest
    exact scanValue_close rest
  | cons c rest0 ih =>
    intro rest
    have hc := h c (List.mem_cons_self _ _)
    have ihr := ih (fun x hx => h x (List.mem_cons_of_mem _ hx))
    by_cases hesc : c = '\\' ∨ c = ']'
    · rw [escChars_cons, if_pos hesc]
      rcases hesc with rfl | rfl
      · show scanValue (92 :: 92 :: ((escChars rest0).map Char.toNat
          ++ 93 :: rest)) = _
        rw [scanValue_esc92, ihr rest]
        rfl
      · show scanValue (92 :: 93 :: ((escChars rest0).map Char.toNat
          ++ 93 :: rest)) = _
        rw [scanValue_esc93, ihr rest]
        rfl
    · rw [escChars_cons, if_neg hesc]
      have hb93 : c.toNat ≠ 93 := by
        intro he
        exact hesc (Or.inr (by rw [← char_ofNat_toNat c hc, he]))
      have hb92 : c.toNat ≠ 92 := by
        intro he
        exact hesc (Or.inl (by rw [← char_ofNat_toNat c hc, he]))
      rw [List.map_cons, List.cons_append,
        scanValue_plain c.toNat hb93 hb92, ihr rest]
      rfl

/-- All characters ASCII (such a string survives any of the parser's
decodings unchanged). -/
def asciiStrB (s : String) : Bool :=
  s.toList.all (fun c => decide (c.toNat < 128))

/-- A property ID the serializer emits and the parser re-reads as an ID:
nonempty, letters only. -/
def wfPidB (pid : String) : Bool :=
  decide (pid ≠ "") && pid.toList.all (fun c => isLetterByte c.toNat)

/-- A property that survives the serialize-parse cycle: well-formed ID,
value shape matching the `list_properties` classification, all value text
ASCII, list values nonempty, and any charset declaration already in the
canonical `'UTF-8'` form `parse` itself produces. -/
def wfPropB : String × PValue → Bool
  | (pid, PValue.str v) =>
    wfPidB pid && !(listProperties.contains pid) && asciiStrB v &&
      (decide (pid ≠ "CA") || decide (v = "UTF-8"))
  | (pid, PValue.strs vs) =>
    wfPidB pid && listProperties.contains pid && decide (vs ≠ []) &&
      vs.all asciiStrB

/-- A node that survives the cycle: distinct keys, well-formed properties. -/
def wfNodeB (n : Node) : Bool :=
  decide (keysOf n).Nodup && n.all wfPropB

mutual

/-- A tree that survives the cycle: nonempty trunk (as `parse` guarantees:
falsy trees are dropped), well-formed nodes and branches. -/
def wfTreeB : GameTree → Bool
  | GameTree.mk trunk bs => decide (trunk ≠ []) && trunk.all wfNodeB &&
      wfForestB bs

/-- `wfTreeB` over a branch list. -/
def wfForestB : List GameTree → Bool
  | [] => true
  | t :: ts => wfTreeB t && wfForestB ts

end

/-- A collection that survives the cycle. -/
def wfCollectionB (c : Collection) : Bool := c.all wfTreeB

theorem intercalate_cons2 (s a b : List Nat) (l : List (List Nat)) :
    List.intercalate s (a :: b :: l) = a ++ s ++ List.intercalate s (b :: l) := by
  simp [List.intercalate, List.intersperse]

/-- A nonempty bracketed value list in the serializer's `v1][v2` form is
the concatenation of individually bracketed values. -/
theorem bracket_form :
    ∀ parts : List (List Nat), parts ≠ [] →
      91 :: (List.intercalate [93, 91] parts ++ [93])
        = (parts.map (fun vb => 91 :: (vb ++ [93]))).flatten := by
  intro parts
  induction parts with
  | nil => intro h; exact absurd rfl h
  | cons x tl ih =>
    intro _
    cases tl with
    | nil => simp [List.intercalate]
    | cons y ztl =>
      rw [intercalate_cons2]
      rw [List.map_cons, List.flatten_cons, ← ih (by simp)]
      simp

theorem dropWhile_cons_neg {b : Nat} (h : isWsByte b = false)
    (T : List Nat) : (b :: T).dropWhile isWsByte = b :: T := by
  rw [List.dropWhile_cons, h]
  rfl

/-- One step of `parse_property_value`'s scan: the input starts with a
serialized `[value]`. -/
theorem parsePValsGo_round :
    ∀ (vs : List String), (∀ v ∈ vs, ∀ c ∈ v.toList, c.toNat < 128) →
      ∀ (rest : List Nat), (rest.dropWhile isWsByte).headD 0 ≠ 91 →
      ∀ fuel, vs.length + 1 ≤ fuel →
        parsePValsGo fuel
          ((vs.map (fun v =>
            91 :: ((escChars v.toList).map Char.toNat ++ [93]))).flatten ++ rest)
          = Except.ok (vs.map (fun v => v.toList.map Char.toNat), rest) := by
  intro vs
  induction vs with
  | nil =>
    intro _ rest hstop fuel hf
    obtain ⟨f, rfl⟩ : ∃ f, fuel = f + 1 := ⟨fuel - 1, by omega⟩
    rw [List.map_nil, List.flatten_nil, List.nil_append, parsePValsGo]
    split
    · next rest3 heq =>
      exact absurd (by rw [heq]; rfl) hstop
    · rfl
  | cons v vtl ih =>
    intro hascii rest hstop fuel hf
    obtain ⟨f, rfl⟩ : ∃ f, fuel = f + 1 := ⟨fuel - 1, by omega⟩
    have hv := hascii v (List.mem_cons_self _ _)
    have hlen : vtl.length + 1 ≤ f := by
      simp only [List.length_cons] at hf
      omega
    rw [List.map_cons, List.flatten_cons, parsePValsGo]
    simp only [List.append_assoc, List.cons_append, List.singleton_append]
    rw [dropWhile_cons_neg (by rfl)]
    simp only []
    rw [scanValue_round v.toList hv]
    simp only [List.nil_append]
    rw [ih (fun x hx => hascii x (List.mem_cons_of_mem _ hx)) rest hstop f hlen]
    rfl

/-- `parse_property_value` on the serialized value region of a property. -/
theorem parsePVals_round (vs : List String) (hne : vs ≠ [])
    (hascii : ∀ v ∈ vs, ∀ c ∈ v.toList, c.toNat < 128)
    (rest : List Nat) (hstop : (rest.dropWhile isWsByte).headD 0 ≠ 91)
    (fuel : Nat) (hf : vs.length + 1 ≤ fuel) :
    parsePVals fuel
      ((vs.map (fun v =>
        91 :: ((escChars v.toList).map Char.toNat ++ [93]))).flatten ++ rest)
      = Except.ok (vs.map (fun v => v.toList.map Char.toNat), rest) := by
  rw [parsePVals, parsePValsGo_round vs hascii rest hstop fuel hf]
  cases vs with
  | nil => exact absurd rfl hne
  | cons v vtl => rfl

theorem letter_lt_128 {b : Nat} (h : isLetterByte b = true) : b < 128 := by
  rw [isLetterByte] at h
  simp only [Bool.or_eq_true, Bool.and_eq_true, decide_eq_true_eq] at h
  omega

theorem letter_not_ws {b : Nat} (h : isLetterByte b = true) :
    isWsByte b = false := by
  rw [isLetterByte] at h
  rw [isWsByte]
  simp only [Bool.or_eq_true, Bool.and_eq_true, decide_eq_true_eq] at h
  simp only [Bool.or_eq_false_iff, decide_eq_false_iff_not]
  omega

/-- The maximal letter run at the front of `xs ++ y :: z` is `xs` when `xs`
is all letters and `y` is not. -/
theorem letters_scan :
    ∀ xs : List Nat, (∀ b ∈ xs, isLetterByte b = true) →
      ∀ (y : Nat) (z : List Nat), isLetterByte y = false →
        (xs ++ y :: z).takeWhile isLetterByte = xs ∧
        (xs ++ y :: z).drop xs.length = y :: z := by
  intro xs
  induction xs with
  | nil =>
    intro _ y z hy
    constructor
    · rw [List.nil_append, List.takeWhile_cons, hy]
      rfl
    · rfl
  | cons x xtl ih =>
    intro h y z hy
    have hx := h x (List.mem_cons_self _ _)
    obtain ⟨ih1, ih2⟩ := ih (fun b hb => h b (List.mem_cons_of_mem _ hb)) y z hy
    constructor
    · rw [List.cons_append, List.takeWhile_cons, hx]
      simp [ih1]
    · rw [List.cons_append, List.length_cons, List.drop_succ_cons]
      exact ih2

/-- Setting an absent key appends the pair at the end. -/
theorem setProp_absent :
    ∀ {n : Node} {pid : String} (v : PValue),
      lookupProp n pid = none → setProp n pid v = n ++ [(pid, v)] := by
  intro n
  induction n with
  | nil => intro pid v _; rfl
  | cons p rest ih =>
    intro pid v h
    obtain ⟨k, w⟩ := p
    rw [lookupProp] at h
    by_cases hk : k = pid
    · rw [if_pos hk] at h
      cases h
    · rw [if_neg hk] at h
      rw [setProp, if_neg hk, List.cons_append, ih v h]

theorem lookupProp_append_none :
    ∀ {a : Node} (b : Node) {k : String},
      lookupProp a k = none → lookupProp (a ++ b) k = lookupProp b k := by
  intro a
  induction a with
  | nil => intro b k _; rfl
  | cons p rest ih =>
    intro b k h
    obtain ⟨kk, w⟩ := p
    rw [lookupProp] at h
    by_cases hk : kk = k
    · rw [if_pos hk] at h
      cases h
    · rw [if_neg hk] at h
      rw [List.cons_append, lookupProp, if_neg hk, ih b h]

/-- Decoding each serialized value recovers the original strings. -/
theorem mapM_decode (decEnc : String)
    (henc : decEnc = "latin-1" ∨ decEnc = "UTF-8" ∨ decEnc = "ASCII") :
    ∀ vs : List String, (∀ v ∈ vs, ∀ c ∈ v.toList, c.toNat < 128) →
      (vs.map (fun v => v.toList.map Char.toNat)).mapM (decodeBytes decEnc)
        = some vs := by
  intro vs
  induction vs with
  | nil => intro _; rfl
  | cons v vtl ih =>
    intro h
    rw [List.map_cons, List.mapM_cons,
      decodeBytes_ascii decEnc henc v.toList (h v (List.mem_cons_self _ _)),
      ih (fun x hx => h x (List.mem_cons_of_mem _ hx))]
    rfl

/-- `encode_value` of an ASCII value is its escaped ASCII byte string,
whichever encoding the property selects. -/
theorem encodeValue_ascii (tp : Bool) (v : String)
    (h : ∀ c ∈ v.toList, c.toNat < 128) :
    encodeValue tp v = some ((escChars v.toList).map Char.toNat) := by
  have hesc : ∀ c ∈ (escapeText v).toList, c.toNat < 128 :=
    escChars_ascii v.toList h
  rw [encodeValue]
  cases tp with
  | true =>
    rw [if_pos rfl, utf8Encode_ascii _ hesc]
    rfl
  | false =>
    rw [if_neg (by simp), asciiEncode_ascii _ hesc]
    rfl

/-- Encoding each value of a list property succeeds on ASCII values. -/
theorem mapM_encode (tp : Bool) :
    ∀ vs : List String, (∀ v ∈ vs, ∀ c ∈ v.toList, c.toNat < 128) →
      vs.mapM (encodeValue tp)
        = some (vs.map (fun v => (escChars v.toList).map Char.toNat)) := by
  intro vs
  induction vs with
  | nil => intro _; rfl
  | cons v vtl ih =>
    intro h
    rw [List.mapM_cons, encodeValue_ascii tp v (h v (List.mem_cons_self _ _)),
      ih (fun x hx => h x (List.mem_cons_of_mem _ hx)), List.map_cons]
    rfl

theorem flatten_bracket_len (vsB : List (List Nat)) :
    2 * vsB.length ≤ ((vsB.map (fun vb => 91 :: (vb ++ [93]))).flatten).length := by
  induction vsB with
  | nil => simp
  | cons x tl ih =>
    simp only [List.map_cons, List.flatten_cons, List.length_append,
      List.length_cons, List.length_map]
    simp at ih ⊢
    omega

theorem asciiStrB_mem {v : String} (h : asciiStrB v = true) :
    ∀ c ∈ v.toList, c.toNat < 128 := by
  rw [asciiStrB, List.all_eq_true] at h
  intro c hc
  exact of_decide_eq_true (h c hc)

theorem wfPidB_parts {pid : String} (h : wfPidB pid = true) :
    pid.toList ≠ [] ∧ (∀ b ∈ pid.toList.map Char.toNat, isLetterByte b = true) := by
  rw [wfPidB, Bool.and_eq_true, decide_eq_true_eq, List.all_eq_true] at h
  constructor
  · intro he
    apply h.1
    have hmk : pid = String.mk pid.toList := rfl
    rw [hmk, he]
  · intro b hb
    obtain ⟨c, hc, rfl⟩ := List.mem_map.mp hb
    exact h.2 c hc

theorem wfPropB_str {pid : String} {v : String}
    (h : wfPropB (pid, PValue.str v) = true) :
    wfPidB pid = true ∧ listProperties.contains pid = false ∧
      (∀ c ∈ v.toList, c.toNat < 128) ∧ (pid = "CA" → v = "UTF-8") := by
  rw [wfPropB] at h
  simp only [Bool.and_eq_true, Bool.not_eq_true', Bool.or_eq_true,
    decide_eq_true_eq] at h
  refine ⟨h.1.1.1, h.1.1.2, asciiStrB_mem h.1.2, fun hca => ?_⟩
  rcases h.2 with hne | hv
  · exact absurd hca hne
  · exact hv

theorem wfPropB_strs {pid : String} {vs : List String}
    (h : wfPropB (pid, PValue.strs vs) = true) :
    wfPidB pid = true ∧ listProperties.contains pid = true ∧ vs ≠ [] ∧
      (∀ v ∈ vs, ∀ c ∈ v.toList, c.toNat < 128) := by
  rw [wfPropB] at h
  simp only [Bool.and_eq_true, decide_eq_true_eq, List.all_eq_true] at h
  exact ⟨h.1.1.1, h.1.1.2, h.1.2, fun v hv => asciiStrB_mem (h.2 v hv)⟩

theorem wfPid_ascii {pid : String} (h : wfPidB pid = true) :
    ∀ c ∈ pid.toList, c.toNat < 128 := by
  intro c hc
  exact letter_lt_128 ((wfPidB_parts h).2 c.toNat (List.mem_map_of_mem _ hc))

theorem nodeBytesParts_cons_str {pid v : String} {ptl : List (String × PValue)}
    {parts : List Nat}
    (hwf1 : wfPropB (pid, PValue.str v) = true)
    (hser : nodeBytesParts ((pid, PValue.str v) :: ptl) = some parts) :
    ∃ restB, nodeBytesParts ptl = some restB ∧
      parts = (pid.toList.map Char.toNat) ++ [91] ++
        ((escChars v.toList).map Char.toNat) ++ [93] ++ restB := by
  obtain ⟨hpid, hlist, hascii, _⟩ := wfPropB_str hwf1
  rw [nodeBytesParts] at hser
  simp only [asciiEncode_ascii pid (wfPid_ascii hpid), Option.some_bind,
    hlist, Bool.false_eq_true, if_false,
    encodeValue_ascii _ v hascii] at hser
  cases hrest : nodeBytesParts ptl with
  | none =>
    rw [hrest] at hser
    exact Option.noConfusion hser
  | some restB =>
    rw [hrest] at hser
    refine ⟨restB, rfl, ?_⟩
    have hser2 : some ((pid.toList.map Char.toNat) ++ [91] ++
        ((escChars v.toList).map Char.toNat) ++ [93] ++ restB)
        = some parts := hser
    injection hser2 with h3
    exact h3.symm

theorem nodeBytesParts_cons_strs {pid : String} {vs : List String}
    {ptl : List (String × PValue)} {parts : List Nat}
    (hwf1 : wfPropB (pid, PValue.strs vs) = true)
    (hser : nodeBytesParts ((pid, PValue.strs vs) :: ptl) = some parts) :
    ∃ restB, nodeBytesParts ptl = some restB ∧
      parts = (pid.toList.map Char.toNat) ++ [91] ++
        (List.intercalate [93, 91]
          (vs.map (fun v => (escChars v.toList).map Char.toNat))) ++ [93]
        ++ restB := by
  obtain ⟨hpid, hlist, _, hascii⟩ := wfPropB_strs hwf1
  rw [nodeBytesParts] at hser
  simp only [asciiEncode_ascii pid (wfPid_ascii hpid), Option.some_bind,
    hlist, if_true, mapM_encode _ vs hascii] at hser
  cases hrest : nodeBytesParts ptl with
  | none =>
    rw [hrest] at hser
    exact Option.noConfusion hser
  | some restB =>
    rw [hrest] at hser
    refine ⟨restB, rfl, ?_⟩
    have hser2 : some ((pid.toList.map Char.toNat) ++ [91] ++
        (List.intercalate [93, 91]
          (vs.map (fun v => (escChars v.toList).map Char.toNat))) ++ [93]
        ++ restB) = some parts := hser
    injection hser2 with h3
    exact h3.symm

theorem nodeBytesParts_letter_head :
    ∀ {props : List (String × PValue)} {parts : List Nat},
      (∀ pv ∈ props, wfPropB pv = true) →
      nodeBytesParts props = some parts →
      (props = [] ∧ parts = []) ∨
        (parts ≠ [] ∧ isLetterByte (parts.headD 0) = true) := by
  intro props parts hwf hser
  cases props with
  | nil =>
    left
    have h2 : some ([] : List Nat) = some parts := hser
    injection h2 with h3
    exact ⟨rfl, h3.symm⟩
  | cons p ptl =>
    right
    obtain ⟨pid, val⟩ := p
    have hwf1 := hwf _ (List.mem_cons_self _ _)
    have hpid : wfPidB pid = true := by
      cases val with
      | str v => exact (wfPropB_str hwf1).1
      | strs vs => exact (wfPropB_strs hwf1).1
    obtain ⟨hne, hlet⟩ := wfPidB_parts hpid
    obtain ⟨c0, ctl, hpl⟩ : ∃ c0 ctl, pid.toList = c0 :: ctl := by
      cases hpl : pid.toList with
      | nil => exact absurd hpl hne
      | cons c0 ctl => exact ⟨c0, ctl, rfl⟩
    have hc0 : isLetterByte c0.toNat = true := by
      apply hlet
      rw [hpl]
      exact List.mem_map_of_mem _ (List.mem_cons_self _ _)
    cases val with
    | str v =>
      obtain ⟨restB, _, hparts⟩ := nodeBytesParts_cons_str hwf1 hser
      rw [hparts, hpl]
      constructor
      · simp
      · simp [hc0]
    | strs vs =>
      obtain ⟨restB, _, hparts⟩ := nodeBytesParts_cons_strs hwf1 hser
      rw [hparts, hpl]
      constructor
      · simp
      · simp [hc0]

/-- The byte class that follows a serialized node in serializer output: the
next non-whitespace byte is `;`, `(` or `)` (so `parse_node` stops without
consuming and `parse_property_value` does not resume). -/
def followerB (rest : List Nat) : Bool :=
  decide (rest.dropWhile isWsByte ≠ []) &&
    (decide ((rest.dropWhile isWsByte).headD 0 = 59) ||
     decide ((rest.dropWhile isWsByte).headD 0 = 40) ||
     decide ((rest.dropWhile isWsByte).headD 0 = 41))

theorem followerB_facts {rest : List Nat} (h : followerB rest = true) :
    rest ≠ [] ∧ (rest.dropWhile isWsByte).takeWhile isLetterByte = [] ∧
      (rest.dropWhile isWsByte).headD 0 ≠ 91 := by
  rw [followerB] at h
  simp only [Bool.and_eq_true, Bool.or_eq_true, decide_eq_true_eq] at h
  obtain ⟨hne, hcls⟩ := h
  refine ⟨?_, ?_, ?_⟩
  · intro he
    rw [he] at hne
    exact hne rfl
  · cases hdw : rest.dropWhile isWsByte with
    | nil => rfl
    | cons b tl =>
      rw [hdw] at hcls
      simp only [List.headD_cons] at hcls
      rw [List.takeWhile_cons]
      have hb : isLetterByte b = false := by
        rcases hcls with (rfl | rfl) | rfl <;> rfl
      rw [hb]
      rfl
  · rcases hcls with (h1 | h1) | h1 <;> omega

/-- The value-scan stop condition holds after the serialized remainder of a
node followed by a node-boundary token. -/
theorem restB_stop {ptl : List (String × PValue)} {restB rest : List Nat}
    (hwf : ∀ pv ∈ ptl, wfPropB pv = true)
    (hser : nodeBytesParts ptl = some restB)
    (hfol : followerB rest = true) :
    ((restB ++ rest).dropWhile isWsByte).headD 0 ≠ 91 := by
  rcases nodeBytesParts_letter_head hwf hser with ⟨_, hp⟩ | ⟨hne, hlet⟩
  · rw [hp, List.nil_append]
    exact (followerB_facts hfol).2.2
  · cases hrb : restB with
    | nil => exact absurd hrb hne
    | cons b tl =>
      rw [hrb] at hlet
      have hb : isLetterByte b = true := hlet
      rw [List.cons_append, dropWhile_cons_neg (letter_not_ws hb)]
      simp only [List.headD_cons]
      intro he
      rw [he] at hb
      exact absurd hb (by decide)

theorem bracket_map_len (vs : List String) :
    2 * vs.length ≤ ((vs.map (fun v =>
      91 :: ((escChars v.toList).map Char.toNat ++ [93]))).flatten).length := by
  induction vs with
  | nil => simp
  | cons x tl ih =>
    simp only [List.map_cons, List.flatten_cons, List.length_append,
      List.length_cons]
    omega

/-- `parse_node` on the serialized properties of a well-formed node: every
property is recovered exactly (appended to the accumulated node), the
charset can only switch to `'UTF-8'`, and the follower is left unconsumed. -/
theorem parseNodeF_round :
    ∀ (props : List (String × PValue)) (acc : Node) (enc : String)
      (parts rest : List Nat),
      (∀ pv ∈ props, wfPropB pv = true) →
      (keysOf props).Nodup →
      (∀ pv ∈ props, lookupProp acc pv.1 = none) →
      (enc = "latin-1" ∨ enc = "UTF-8") →
      nodeBytesParts props = some parts →
      followerB rest = true →
      ∀ fuel, (parts ++ rest).length + 1 ≤ fuel →
        ∃ enc2, parseNodeF fuel enc (parts ++ rest) acc
            = Except.ok (acc ++ props, enc2, rest) ∧
          (enc2 = "latin-1" ∨ enc2 = "UTF-8") := by
  intro props
  induction props with
  | nil =>
    intro acc enc parts rest _ _ _ hencOK hser hfol fuel hf
    obtain ⟨f, rfl⟩ : ∃ f, fuel = f + 1 := ⟨fuel - 1, by omega⟩
    have hp : parts = [] := by
      have h2 : some ([] : List Nat) = some parts := hser
      injection h2 with h3
      exact h3.symm
    subst hp
    obtain ⟨hne, htw, _⟩ := followerB_facts hfol
    refine ⟨enc, ?_, hencOK⟩
    rw [List.nil_append, parseNodeF.eq_def]
    simp only []
    split
    · exact absurd rfl hne
    · rw [if_pos (Or.inl htw)]
      simp
  | cons p ptl ih =>
    intro acc enc parts rest hwf hnodup hnew hencOK hser hfol fuel hf
    obtain ⟨f, rfl⟩ : ∃ f, fuel = f + 1 := ⟨fuel - 1, by omega⟩
    obtain ⟨pid, val⟩ := p
    have hwf1 : wfPropB (pid, val) = true := hwf _ (List.mem_cons_self _ _)
    have hwftl : ∀ pv ∈ ptl, wfPropB pv = true :=
      fun pv hpv => hwf pv (List.mem_cons_of_mem _ hpv)
    have hnduptl : (keysOf ptl).Nodup := by
      rw [keysOf, List.map_cons, List.nodup_cons] at hnodup
      exact hnodup.2
    have hkeyfresh : ∀ pv ∈ ptl, pv.1 ≠ pid := by
      intro pv hpv he
      rw [keysOf, List.map_cons, List.nodup_cons] at hnodup
      apply hnodup.1
      rw [← he]
      exact List.mem_map.mpr ⟨pv, hpv, rfl⟩
    have hnew1 : lookupProp acc pid = none := hnew _ (List.mem_cons_self _ _)
    have hpid : wfPidB pid = true := by
      cases val with
      | str v => exact (wfPropB_str hwf1).1
      | strs vs => exact (wfPropB_strs hwf1).1
    obtain ⟨hplne, hlet⟩ := wfPidB_parts hpid
    obtain ⟨c0, ctl, hpl⟩ : ∃ c0 ctl, pid.toList = c0 :: ctl := by
      cases hpl : pid.toList with
      | nil => exact absurd hpl hplne
      | cons c0 ctl => exact ⟨c0, ctl, rfl⟩
    have hcl128 : ∀ c ∈ (c0 :: ctl), c.toNat < 128 := by
      have h0 := wfPid_ascii hpid
      rw [hpl] at h0
      exact h0
    have hlet2 : ∀ b ∈ (c0 :: ctl).map Char.toNat, isLetterByte b = true := by
      have h0 := hlet
      rw [hpl] at h0
      exact h0
    have hc0 : isLetterByte c0.toNat = true :=
      hlet2 _ (List.mem_map_of_mem _ (List.mem_cons_self _ _))
    have hmk : String.mk (c0 :: ctl) = pid := by
      rw [← hpl]
      exact rfl
    have hnewtl : ∀ pv ∈ ptl,
        lookupProp (acc ++ [(pid, val)]) pv.1 = none := by
      intro pv hpv
      rw [lookupProp_append_none _ (hnew pv (List.mem_cons_of_mem _ hpv)),
        lookupProp, if_neg (fun he => hkeyfresh pv hpv he.symm)]
      rfl
    cases val with
    | str v =>
      obtain ⟨_, hlist, hvascii, hCA⟩ := wfPropB_str hwf1
      obtain ⟨restB, hrest, hparts⟩ := nodeBytesParts_cons_str hwf1 hser
      subst hparts
      have hstopv : ((restB ++ rest).dropWhile isWsByte).headD 0 ≠ 91 :=
        restB_stop hwftl hrest hfol
      rw [hpl] at hf ⊢
      simp only [List.append_assoc, List.singleton_append,
        List.cons_append, List.nil_append] at hf ⊢
      simp only [List.length_append, List.length_cons, List.length_map] at hf
      have hscan := letters_scan ((c0 :: ctl).map Char.toNat) hlet2 91
        ((escChars v.toList).map Char.toNat ++ 93 :: (restB ++ rest))
        (by decide)
      have hdw : ((c0 :: ctl).map Char.toNat ++
          91 :: ((escChars v.toList).map Char.toNat ++
            93 :: (restB ++ rest))).dropWhile isWsByte
          = (c0 :: ctl).map Char.toNat ++
            91 :: ((escChars v.toList).map Char.toNat ++
              93 :: (restB ++ rest)) := by
        rw [List.map_cons, List.cons_append,
          dropWhile_cons_neg (letter_not_ws hc0)]
      have hreg : (91 : Nat) :: ((escChars v.toList).map Char.toNat ++
          93 :: (restB ++ rest))
          = (([v].map (fun v =>
              91 :: ((escChars v.toList).map Char.toNat ++ [93]))).flatten)
            ++ (restB ++ rest) := by
        simp
      have hpv := parsePVals_round [v] (by simp)
        (by
          intro x hx
          rw [List.mem_singleton] at hx
          subst hx
          exact hvascii) (restB ++ rest) hstopv f
        (by simp only [List.length_singleton]; omega)
      have henc3 : (if textProperties.contains pid = true then enc
          else "ASCII") = "latin-1" ∨
          (if textProperties.contains pid = true then enc
          else "ASCII") = "UTF-8" ∨
          (if textProperties.contains pid = true then enc
          else "ASCII") = "ASCII" := by
        by_cases htp : textProperties.contains pid = true
        · rw [if_pos htp]
          rcases hencOK with rfl | rfl
          · exact Or.inl rfl
          · exact Or.inr (Or.inl rfl)
        · rw [if_neg htp]
          exact Or.inr (Or.inr rfl)
      have hdec := mapM_decode _ henc3 [v]
        (by
          intro x hx
          rw [List.mem_singleton] at hx
          subst hx
          exact hvascii)
      by_cases hca : pid = "CA"
      · subst hca
        have hv8 : v = "UTF-8" := hCA rfl
        subst hv8
        obtain ⟨enc2, hrec, henc2⟩ := ih (acc ++ [("CA", PValue.str "UTF-8")])
          "UTF-8" restB rest hwftl hnduptl hnewtl (Or.inr rfl) hrest hfol f
          (by simp only [List.length_append]; omega)
        refine ⟨enc2, ?_, henc2⟩
        rw [parseNodeF.eq_def]
        simp only []
        split
        · next heq => exact absurd heq (by simp)
        · rw [hdw, hscan.1, hscan.2,
            dropWhile_cons_neg (show isWsByte 91 = false from rfl),
            if_neg (by simp)]
          rw [map_ofNat_toNat _ hcl128, hmk, hreg, hpv]
          simp only []
          rw [hdec]
          simp only []
          rw [hlist]
          simp only [Bool.false_eq_true, if_false]
          rw [hnew1]
          simp only []
          rw [setProp_absent _ hnew1]
          simp only [if_true]
          have hlk : lookupProp (acc ++ [("CA", PValue.str "UTF-8")]) "CA"
              = some (PValue.str "UTF-8") := by
            rw [lookupProp_append_none _ hnew1]
            rfl
          rw [setProp_lookup_self hlk, hrec]
          simp
      · obtain ⟨enc2, hrec, henc2⟩ := ih (acc ++ [(pid, PValue.str v)])
          enc restB rest hwftl hnduptl hnewtl hencOK hrest hfol f
          (by simp only [List.length_append]; omega)
        refine ⟨enc2, ?_, henc2⟩
        rw [parseNodeF.eq_def]
        simp only []
        split
        · next heq => exact absurd heq (by simp)
        · rw [hdw, hscan.1, hscan.2,
            dropWhile_cons_neg (show isWsByte 91 = false from rfl),
            if_neg (by simp)]
          rw [map_ofNat_toNat _ hcl128, hmk, hreg, hpv]
          simp only []
          rw [hdec]
          simp only []
          rw [hlist]
          simp only [Bool.false_eq_true, if_false]
          rw [hnew1]
          simp only []
          rw [setProp_absent _ hnew1, if_neg hca]
          rw [hrec]
          simp
    | strs vs =>
      obtain ⟨_, hlist, hvne, hvascii⟩ := wfPropB_strs hwf1
      obtain ⟨restB, hrest, hparts⟩ := nodeBytesParts_cons_strs hwf1 hser
      subst hparts
      have hstopv : ((restB ++ rest).dropWhile isWsByte).headD 0 ≠ 91 :=
        restB_stop hwftl hrest hfol
      have hca : pid ≠ "CA" := by
        intro he
        rw [he] at hlist
        exact absurd hlist (by decide)
      rw [hpl] at hf ⊢
      simp only [List.append_assoc, List.singleton_append,
        List.cons_append, List.nil_append] at hf ⊢
      have hscan := letters_scan ((c0 :: ctl).map Char.toNat) hlet2 91
        (List.intercalate [93, 91]
          (vs.map (fun v => (escChars v.toList).map Char.toNat)) ++
          93 :: (restB ++ rest))
        (by decide)
      have hdw : ((c0 :: ctl).map Char.toNat ++
          91 :: (List.intercalate [93, 91]
            (vs.map (fun v => (escChars v.toList).map Char.toNat)) ++
            93 :: (restB ++ rest))).dropWhile isWsByte
          = (c0 :: ctl).map Char.toNat ++
            91 :: (List.intercalate [93, 91]
              (vs.map (fun v => (escChars v.toList).map Char.toNat)) ++
              93 :: (restB ++ rest)) := by
        rw [List.map_cons, List.cons_append,
          dropWhile_cons_neg (letter_not_ws hc0)]
      have hb := bracket_form
        (vs.map (fun v => (escChars v.toList).map Char.toNat))
        (by simp [hvne])
      have hreg : (91 : Nat) :: (List.intercalate [93, 91]
          (vs.map (fun v => (escChars v.toList).map Char.toNat)) ++
          93 :: (restB ++ rest))
          = ((vs.map (fun v =>
              91 :: ((escChars v.toList).map Char.toNat ++ [93]))).flatten)
            ++ (restB ++ rest) := by
        rw [show (91 : Nat) :: (List.intercalate [93, 91]
            (vs.map (fun v => (escChars v.toList).map Char.toNat)) ++
            93 :: (restB ++ rest))
            = (91 :: (List.intercalate [93, 91]
              (vs.map (fun v => (escChars v.toList).map Char.toNat)) ++ [93]))
              ++ (restB ++ rest) from by simp, hb, List.map_map]
        rfl
      have hlenb : 2 * vs.length ≤ (((vs.map (fun v =>
          91 :: ((escChars v.toList).map Char.toNat ++ [93]))).flatten)).length :=
        bracket_map_len vs
      have hlenreg := congrArg List.length hreg
      simp only [List.length_cons, List.length_append] at hlenreg
      simp only [List.length_append, List.length_cons, List.length_map] at hf
      have hpv := parsePVals_round vs hvne hvascii (restB ++ rest) hstopv f
        (by omega)
      have henc3 : (if textProperties.contains pid = true then enc
          else "ASCII") = "latin-1" ∨
          (if textProperties.contains pid = true then enc
          else "ASCII") = "UTF-8" ∨
          (if textProperties.contains pid = true then enc
          else "ASCII") = "ASCII" := by
        by_cases htp : textProperties.contains pid = true
        · rw [if_pos htp]
          rcases hencOK with rfl | rfl
          · exact Or.inl rfl
          · exact Or.inr (Or.inl rfl)
        · rw [if_neg htp]
          exact Or.inr (Or.inr rfl)
      have hdec := mapM_decode _ henc3 vs hvascii
      obtain ⟨enc2, hrec, henc2⟩ := ih (acc ++ [(pid, PValue.strs vs)])
        enc restB rest hwftl hnduptl hnewtl hencOK hrest hfol f
        (by simp only [List.length_append]; omega)
      refine ⟨enc2, ?_, henc2⟩
      rw [parseNodeF.eq_def]
      simp only []
      split
      · next heq => exact absurd heq (by simp)
      · rw [hdw, hscan.1, hscan.2,
          dropWhile_cons_neg (show isWsByte 91 = false from rfl),
          if_neg (by simp)]
        rw [map_ofNat_toNat _ hcl128, hmk, hreg, hpv]
        simp only []
        rw [hdec]
        simp only []
        rw [hlist]
        simp only [if_true]
        rw [hnew1]
        simp only []
        rw [setProp_absent _ hnew1, if_neg hca]
        rw [hrec]
        simp

/-- The serialized form of a part list joined by single line breaks, as it
appears after the opening parenthesis of a serialized tree. -/
def seg10 (ps : List (List Nat)) : List Nat :=
  (ps.map (fun p => 10 :: p)).flatten

theorem seg10_nil : seg10 [] = [] := rfl

theorem seg10_cons (p : List Nat) (ps : List (List Nat)) :
    seg10 (p :: ps) = 10 :: (p ++ seg10 ps) := by
  simp [seg10]

theorem intercalate_head (s : List Nat) :
    ∀ (x : List Nat) (ps : List (List Nat)),
      List.intercalate s (x :: ps) = x ++ (ps.map (fun p => s ++ p)).flatten := by
  intro x ps
  induction ps generalizing x with
  | nil => simp [List.intercalate]
  | cons q qs ih =>
    rw [intercalate_cons2 s x q qs, ih q]
    simp

theorem dropWhile_ws10 (l : List Nat) :
    List.dropWhile isWsByte (10 :: l) = List.dropWhile isWsByte l := by
  rw [List.dropWhile_cons]
  rfl

theorem followerB_cons10 {b : Nat} (hb : b = 59 ∨ b = 40 ∨ b = 41)
    (X : List Nat) : followerB (10 :: b :: X) = true := by
  have hbws : isWsByte b = false := by
    rcases hb with rfl | rfl | rfl <;> rfl
  rw [followerB, dropWhile_ws10, dropWhile_cons_neg hbws]
  rcases hb with rfl | rfl | rfl <;> rfl

theorem wfNodeB_parts {n : Node} (h : wfNodeB n = true) :
    (keysOf n).Nodup ∧ ∀ pv ∈ n, wfPropB pv = true := by
  rw [wfNodeB, Bool.and_eq_true, decide_eq_true_eq, List.all_eq_true] at h
  exact h

theorem wfTreeB_parts {trunk : List Node} {bs : List GameTree}
    (h : wfTreeB (GameTree.mk trunk bs) = true) :
    trunk ≠ [] ∧ (∀ n ∈ trunk, wfNodeB n = true) ∧ wfForestB bs = true := by
  rw [wfTreeB] at h
  simp only [Bool.and_eq_true, decide_eq_true_eq, List.all_eq_true] at h
  exact ⟨h.1.1, h.1.2, h.2⟩

theorem wfForestB_parts {b : GameTree} {bs : List GameTree}
    (h : wfForestB (b :: bs) = true) :
    wfTreeB b = true ∧ wfForestB bs = true := by
  rw [wfForestB, Bool.and_eq_true] at h
  exact h

theorem nodeBytes_shape {n : Node} {np : List Nat}
    (h : nodeBytes n = some np) :
    ∃ parts, nodeBytesParts n = some parts ∧ np = 59 :: parts := by
  rw [nodeBytes] at h
  cases hp : nodeBytesParts n with
  | none =>
    rw [hp] at h
    exact Option.noConfusion h
  | some parts =>
    rw [hp] at h
    refine ⟨parts, rfl, ?_⟩
    have h2 : some (59 :: parts) = some np := h
    injection h2 with h3
    exact h3.symm

theorem treeListBytes_cons {t : GameTree} {ts : List GameTree}
    {bps : List (List Nat)} (h : treeListBytes (t :: ts) = some bps) :
    ∃ tb tbs, treeBytes t = some tb ∧ treeListBytes ts = some tbs ∧
      bps = tb :: tbs := by
  rw [treeListBytes] at h
  cases ht : treeBytes t with
  | none =>
    rw [ht] at h
    exact Option.noConfusion h
  | some tb =>
    rw [ht] at h
    cases hts : treeListBytes ts with
    | none =>
      rw [hts] at h
      exact Option.noConfusion h
    | some tbs =>
      rw [hts] at h
      refine ⟨tb, tbs, rfl, rfl, ?_⟩
      have h2 : some (tb :: tbs) = some bps := h
      injection h2 with h3
      exact h3.symm

theorem mapM_nodeBytes_cons {n : Node} {trunk : List Node}
    {nps : List (List Nat)} (h : (n :: trunk).mapM nodeBytes = some nps) :
    ∃ np nprest, nodeBytes n = some np ∧ trunk.mapM nodeBytes = some nprest ∧
      nps = np :: nprest := by
  rw [List.mapM_cons] at h
  cases hn : nodeBytes n with
  | none =>
    rw [hn] at h
    exact Option.noConfusion h
  | some np =>
    rw [hn] at h
    cases ht : trunk.mapM nodeBytes with
    | none =>
      rw [ht] at h
      exact Option.noConfusion h
    | some nprest =>
      rw [ht] at h
      refine ⟨np, nprest, rfl, rfl, ?_⟩
      have h2 : some (np :: nprest) = some nps := h
      injection h2 with h3
      exact h3.symm

theorem treeBytes_shape {trunk : List Node} {bs : List GameTree}
    {tb : List Nat} (h : treeBytes (GameTree.mk trunk bs) = some tb) :
    ∃ nodeParts branchParts, trunk.mapM nodeBytes = some nodeParts ∧
      treeListBytes bs = some branchParts ∧
      tb = 40 :: seg10 (nodeParts ++ branchParts ++ [[41]]) := by
  rw [treeBytes] at h
  cases hn : trunk.mapM nodeBytes with
  | none =>
    rw [hn] at h
    exact Option.noConfusion h
  | some nodeParts =>
    rw [hn] at h
    cases hb : treeListBytes bs with
    | none =>
      rw [hb] at h
      exact Option.noConfusion h
    | some branchParts =>
      rw [hb] at h
      refine ⟨nodeParts, branchParts, rfl, rfl, ?_⟩
      have h2 : some (List.intercalate [10]
          ([[40]] ++ nodeParts ++ branchParts ++ [[41]])) = some tb := h
      injection h2 with h3
      rw [← h3]
      rw [show [[40]] ++ nodeParts ++ branchParts ++ [[41]]
          = [40] :: (nodeParts ++ branchParts ++ [[41]]) from by simp,
        intercalate_head]
      rw [seg10]
      rfl

theorem seg10_append (ps qs : List (List Nat)) :
    seg10 (ps ++ qs) = seg10 ps ++ seg10 qs := by
  simp [seg10]

/-- Every serialized node part starts with `;`. -/
theorem mapM_nodeBytes_heads :
    ∀ {trunk : List Node} {nps : List (List Nat)},
      trunk.mapM nodeBytes = some nps →
      ∀ p ∈ nps, ∃ parts, p = 59 :: parts := by
  intro trunk
  induction trunk with
  | nil =>
    intro nps h p hp
    have h2 : some ([] : List (List Nat)) = some nps := h
    injection h2 with h3
    rw [← h3] at hp
    cases hp
  | cons n tl ih =>
    intro nps h p hp
    obtain ⟨np, nprest, hn, ht, rfl⟩ := mapM_nodeBytes_cons h
    obtain ⟨parts, _, rfl⟩ := nodeBytes_shape hn
    rcases List.mem_cons.mp hp with rfl | hp2
    · exact ⟨parts, rfl⟩
    · exact ih ht p hp2

/-- Every serialized branch part starts with `(`. -/
theorem treeListBytes_heads :
    ∀ {bs : List GameTree} {bps : List (List Nat)},
      treeListBytes bs = some bps →
      ∀ p ∈ bps, ∃ inner, p = 40 :: inner := by
  intro bs
  induction bs with
  | nil =>
    intro bps h p hp
    have h2 : some ([] : List (List Nat)) = some bps := h
    injection h2 with h3
    rw [← h3] at hp
    cases hp
  | cons t tl ih =>
    intro bps h p hp
    obtain ⟨tb, tbs, htb, htl, rfl⟩ := treeListBytes_cons h
    rcases List.mem_cons.mp hp with rfl | hp2
    · obtain ⟨tr2, bs2⟩ := t
      obtain ⟨np2, bp2, _, _, rfl⟩ := treeBytes_shape htb
      exact ⟨_, rfl⟩
    · exact ih htl p hp2

/-- A serialized part region is a valid node follower when its first part
starts with one of the three boundary bytes. -/
theorem seg10_parts_follower :
    ∀ (ps : List (List Nat)) (rest : List Nat),
      ps ≠ [] →
      (∀ p ∈ ps, ∃ b tlp, p = b :: tlp ∧ (b = 59 ∨ b = 40 ∨ b = 41)) →
      followerB (seg10 ps ++ rest) = true := by
  intro ps rest hne hheads
  cases ps with
  | nil => exact absurd rfl hne
  | cons p ps2 =>
    obtain ⟨b, tlp, rfl, hb⟩ := hheads p (List.mem_cons_self _ _)
    rw [seg10_cons]
    rw [show (10 :: (b :: tlp ++ seg10 ps2)) ++ rest
        = 10 :: b :: (tlp ++ seg10 ps2 ++ rest) from by simp]
    exact followerB_cons10 hb _

/-- A serialized tree's closing `\")\"` (preceded by its line break) ends
`parse_game_tree`, returning the accumulated tree. -/
theorem parseGameTreeF_close (fuel : Nat) (enc : String)
    (trunkAcc : List Node) (branchAcc : List GameTree) (rest : List Nat) :
    parseGameTreeF (fuel + 1) enc (10 :: 41 :: rest) trunkAcc branchAcc
      = Except.ok (GameTree.mk trunkAcc branchAcc, enc, rest) := by
  rw [parseGameTreeF.eq_def]
  simp only []
  rw [show (10 :: 41 :: rest).dropWhile isWsByte = 41 :: rest from by
    rw [dropWhile_ws10, dropWhile_cons_neg (by rfl)]]

/-- A `\")\"` peeked through its line break stops `parse_branches` without
consuming. -/
theorem parseBranchesF_close (fuel : Nat) (enc : String)
    (acc : List GameTree) (rest : List Nat) :
    parseBranchesF (fuel + 1) enc (10 :: 41 :: rest) acc
      = Except.ok (acc, enc, 10 :: 41 :: rest) := by
  rw [parseBranchesF.eq_def]
  simp only []
  rw [show (10 :: 41 :: rest).dropWhile isWsByte = 41 :: rest from by
    rw [dropWhile_ws10, dropWhile_cons_neg (by rfl)]]

/-- `parse_game_tree` inverts the serializer on a well-formed tree: entered
after the tree's `(`, it rebuilds exactly the tree's trunk and branches,
consumes the closing `)`, and leaves the remainder untouched. -/
theorem parseGameTreeF_round :
    ∀ N : Nat, ∀ (trunk : List Node) (bs : List GameTree),
      treeSize (GameTree.mk trunk bs) ≤ N →
      wfTreeB (GameTree.mk trunk bs) = true →
      ∀ (nodeParts branchParts : List (List Nat)),
        trunk.mapM nodeBytes = some nodeParts →
        treeListBytes bs = some branchParts →
      ∀ (enc : String), enc = "latin-1" ∨ enc = "UTF-8" →
      ∀ (rest : List Nat) (fuel : Nat),
        2 * (seg10 (nodeParts ++ branchParts ++ [[41]]) ++ rest).length + 2
          ≤ fuel →
        ∃ enc2, parseGameTreeF fuel enc
            (seg10 (nodeParts ++ branchParts ++ [[41]]) ++ rest) [] []
          = Except.ok (GameTree.mk trunk bs, enc2, rest) ∧
          (enc2 = "latin-1" ∨ enc2 = "UTF-8") := by
  intro N
  induction N with
  | zero =>
    intro trunk bs hsz
    exact absurd hsz (by have := treeSize_pos (GameTree.mk trunk bs); omega)
  | succ N ihN =>
    intro trunk bs hsz hwf nodeParts branchParts hnps hbps enc hencOK rest
      fuel hfuel
    obtain ⟨htrne, htrwf, hbswf⟩ := wfTreeB_parts hwf
    have hbsz : ∀ b ∈ bs, treeSize b ≤ N := by
      intro b hb
      have h1 := treeSize_le_of_mem hb
      have h2 : treeSize (GameTree.mk trunk bs)
          = trunk.length + 1 + treeSizeList bs := rfl
      have h3 : 1 ≤ trunk.length := List.length_pos.mpr htrne
      omega
    have hdw10 : ∀ (b : Nat), isWsByte b = false → ∀ (X : List Nat),
        (10 :: b :: X).dropWhile isWsByte = b :: X := by
      intro b hb X
      rw [dropWhile_ws10, dropWhile_cons_neg hb]
    have B : ∀ (bsTail : List GameTree) (b : GameTree),
        wfTreeB b = true → wfForestB bsTail = true →
        treeSize b ≤ N → (∀ x ∈ bsTail, treeSize x ≤ N) →
        ∀ (inner : List Nat), treeBytes b = some (40 :: inner) →
        ∀ (bpsTail : List (List Nat)), treeListBytes bsTail = some bpsTail →
        ∀ (acc : List GameTree) (enc1 : String),
          enc1 = "latin-1" ∨ enc1 = "UTF-8" →
        ∀ (rest1 : List Nat) (fuel1 : Nat),
          2 * (inner ++ (seg10 bpsTail ++ 10 :: 41 :: rest1)).length + 3
            ≤ fuel1 →
          ∃ enc2, parseBranchesF fuel1 enc1
              (inner ++ (seg10 bpsTail ++ 10 :: 41 :: rest1)) acc
            = Except.ok (acc ++ b :: bsTail, enc2, 10 :: 41 :: rest1) ∧
            (enc2 = "latin-1" ∨ enc2 = "UTF-8") := by
      intro bsTail
      induction bsTail with
      | nil =>
        intro b hwfb _ hszb _ inner hinner bpsTail hbt acc enc1 henc1 rest1
          fuel1 hfuel1
        have hbt0 : bpsTail = [] := by
          have h2 : some ([] : List (List Nat)) = some bpsTail := hbt
          injection h2 with h3
          exact h3.symm
        subst hbt0
        obtain ⟨f1, rfl⟩ : ∃ f1, fuel1 = f1 + 1 := ⟨fuel1 - 1, by omega⟩
        obtain ⟨tr2, bs2⟩ := b
        obtain ⟨np2, bp2, hnp2, hbp2, hsh⟩ := treeBytes_shape hinner
        have hinner2 : inner = seg10 (np2 ++ bp2 ++ [[41]]) := by
          injection hsh
        subst hinner2
        obtain ⟨htr2ne, _, _⟩ := wfTreeB_parts hwfb
        obtain ⟨n0, tr2t, rfl⟩ : ∃ n0 t, tr2 = n0 :: t := by
          cases htr2 : tr2 with
          | nil => exact absurd htr2 htr2ne
          | cons n0 t => exact ⟨n0, t, rfl⟩
        obtain ⟨np0, np2t, hn0, hnp2t, rfl⟩ := mapM_nodeBytes_cons hnp2
        obtain ⟨parts0, hparts0, rfl⟩ := nodeBytes_shape hn0
        simp only [seg10_cons, seg10_nil, seg10_append, List.nil_append,
          List.append_nil, List.cons_append, List.append_assoc,
          List.singleton_append, List.length_append, List.length_cons]
          at hfuel1
        have hA := ihN (n0 :: tr2t) bs2 hszb hwfb ((59 :: parts0) :: np2t)
          bp2 hnp2 hbp2 enc1 henc1 (10 :: 41 :: rest1) f1
          (by
            simp only [seg10_cons, seg10_nil, seg10_append, List.nil_append,
              List.append_nil, List.cons_append, List.append_assoc,
              List.singleton_append, List.length_append, List.length_cons]
            omega)
        obtain ⟨enc2, hrec, henc2⟩ := hA
        simp only [seg10_cons, seg10_nil, seg10_append, List.nil_append,
          List.append_nil, List.cons_append, List.append_assoc,
          List.singleton_append] at hrec
        refine ⟨enc2, ?_, henc2⟩
        simp only [seg10_cons, seg10_nil, seg10_append, List.nil_append,
          List.append_nil, List.cons_append, List.append_assoc,
          List.singleton_append]
        rw [parseBranchesF.eq_def]
        simp only []
        rw [hdw10 59 (by rfl)]
        simp only []
        rw [hrec]
        simp only []
        rw [if_pos (show (GameTree.mk (n0 :: tr2t) bs2).trunk ≠ [] from by
          simp [GameTree.trunk])]
        rw [hdw10 41 (by rfl)]
        simp only []
        obtain ⟨f2, rfl⟩ : ∃ f2, f1 = f2 + 1 := ⟨f1 - 1, by omega⟩
        rw [parseBranchesF_close]
      | cons b2 bsT2 ihB =>
        intro b hwfb hfor hszb hszT inner hinner bpsTail hbt acc enc1 henc1
          rest1 fuel1 hfuel1
        obtain ⟨hwfb2, hfor2⟩ := wfForestB_parts hfor
        obtain ⟨tbb2, bps2, htbb2, hbps2, rfl⟩ := treeListBytes_cons hbt
        obtain ⟨f1, rfl⟩ : ∃ f1, fuel1 = f1 + 1 := ⟨fuel1 - 1, by omega⟩
        obtain ⟨tr2, bs2⟩ := b
        obtain ⟨np2, bp2, hnp2, hbp2, hsh⟩ := treeBytes_shape hinner
        have hinner2 : inner = seg10 (np2 ++ bp2 ++ [[41]]) := by
          injection hsh
        subst hinner2
        obtain ⟨htr2ne, _, _⟩ := wfTreeB_parts hwfb
        obtain ⟨n0, tr2t, rfl⟩ : ∃ n0 t, tr2 = n0 :: t := by
          cases htr2 : tr2 with
          | nil => exact absurd htr2 htr2ne
          | cons n0 t => exact ⟨n0, t, rfl⟩
        obtain ⟨np0, np2t, hn0, hnp2t, rfl⟩ := mapM_nodeBytes_cons hnp2
        obtain ⟨parts0, hparts0, rfl⟩ := nodeBytes_shape hn0
        obtain ⟨trB2, bsB2⟩ := b2
        obtain ⟨npB2, bpB2, hnpB2, hbpB2, hshB⟩ := treeBytes_shape htbb2
        subst hshB
        simp only [seg10_cons, seg10_nil, seg10_append, List.nil_append,
          List.append_nil, List.cons_append, List.append_assoc,
          List.singleton_append, List.length_append, List.length_cons]
          at hfuel1
        have hA := ihN (n0 :: tr2t) bs2 hszb hwfb ((59 :: parts0) :: np2t)
          bp2 hnp2 hbp2 enc1 henc1
          (10 :: 40 :: (seg10 (npB2 ++ bpB2 ++ [[41]]) ++
            (seg10 bps2 ++ 10 :: 41 :: rest1))) f1
          (by
            simp only [seg10_cons, seg10_nil, seg10_append, List.nil_append,
              List.append_nil, List.cons_append, List.append_assoc,
              List.singleton_append, List.length_append, List.length_cons]
            omega)
        obtain ⟨enc2, hrec, henc2⟩ := hA
        simp only [seg10_cons, seg10_nil, seg10_append, List.nil_append,
          List.append_nil, List.cons_append, List.append_assoc,
          List.singleton_append] at hrec
        have hB2 := ihB (GameTree.mk trB2 bsB2) hwfb2 hfor2
          (hszT _ (List.mem_cons_self _ _))
          (fun x hx => hszT x (List.mem_cons_of_mem _ hx))
          (seg10 (npB2 ++ bpB2 ++ [[41]])) htbb2 bps2 hbps2
          (acc ++ [GameTree.mk (n0 :: tr2t) bs2]) enc2 henc2 rest1 f1
          (by
            simp only [seg10_cons, seg10_nil, seg10_append, List.nil_append,
              List.append_nil, List.cons_append, List.append_assoc,
              List.singleton_append, List.length_append, List.length_cons]
            omega)
        obtain ⟨enc3, hrecB, henc3⟩ := hB2
        simp only [seg10_cons, seg10_nil, seg10_append, List.nil_append,
          List.append_nil, List.cons_append, List.append_assoc,
          List.singleton_append] at hrecB
        refine ⟨enc3, ?_, henc3⟩
        simp only [seg10_cons, seg10_nil, seg10_append, List.nil_append,
          List.append_nil, List.cons_append, List.append_assoc,
          List.singleton_append]
        rw [parseBranchesF.eq_def]
        simp only []
        rw [hdw10 59 (by rfl)]
        simp only []
        rw [hrec]
        simp only []
        rw [if_pos (show (GameTree.mk (n0 :: tr2t) bs2).trunk ≠ [] from by
          simp [GameTree.trunk])]
        rw [hdw10 40 (by rfl)]
        simp only []
        rw [hrecB]
    have Agen : ∀ (trunkRest : List Node) (npRest : List (List Nat)),
        trunkRest.mapM nodeBytes = some npRest →
        (∀ n ∈ trunkRest, wfNodeB n = true) →
        ∀ (trunkAcc : List Node) (enc1 : String),
          enc1 = "latin-1" ∨ enc1 = "UTF-8" →
        ∀ (rest1 : List Nat) (fuel1 : Nat),
          2 * (seg10 (npRest ++ branchParts ++ [[41]]) ++ rest1).length + 2
            ≤ fuel1 →
          ∃ enc2, parseGameTreeF fuel1 enc1
              (seg10 (npRest ++ branchParts ++ [[41]]) ++ rest1) trunkAcc []
            = Except.ok (GameTree.mk (trunkAcc ++ trunkRest) bs, enc2, rest1)
            ∧ (enc2 = "latin-1" ∨ enc2 = "UTF-8") := by
      intro trunkRest
      induction trunkRest with
      | nil =>
        intro npRest hmap _ trunkAcc enc1 henc1 rest1 fuel1 hfuel1
        have h0 : npRest = [] := by
          have h2 : some ([] : List (List Nat)) = some npRest := hmap
          injection h2 with h3
          exact h3.symm
        subst h0
        obtain ⟨f1, rfl⟩ : ∃ f1, fuel1 = f1 + 1 := ⟨fuel1 - 1, by omega⟩
        cases bs with
        | nil =>
          have hbp0 : branchParts = [] := by
            have h2 : some ([] : List (List Nat)) = some branchParts := hbps
            injection h2 with h3
            exact h3.symm
          subst hbp0
          refine ⟨enc1, ?_, henc1⟩
          simp only [seg10_cons, seg10_nil, seg10_append, List.nil_append,
            List.append_nil, List.cons_append, List.append_assoc,
            List.singleton_append]
          rw [parseGameTreeF_close]
        | cons b bsTail =>
          obtain ⟨tbb, bpsTail, htbb, hbpsTail, rfl⟩ := treeListBytes_cons hbps
          obtain ⟨hwfb, hforTail⟩ := wfForestB_parts hbswf
          obtain ⟨trB, bsB⟩ := b
          obtain ⟨npB, bpB, hnpB, hbpB, hshB⟩ := treeBytes_shape htbb
          subst hshB
          simp only [seg10_cons, seg10_nil, seg10_append, List.nil_append,
            List.append_nil, List.cons_append, List.append_assoc,
            List.singleton_append, List.length_append, List.length_cons]
            at hfuel1
          obtain ⟨f2, rfl⟩ : ∃ f2, f1 = f2 + 1 := ⟨f1 - 1, by omega⟩
          have hBinst := B bsTail (GameTree.mk trB bsB) hwfb hforTail
            (hbsz _ (List.mem_cons_self _ _))
            (fun x hx => hbsz x (List.mem_cons_of_mem _ hx))
            (seg10 (npB ++ bpB ++ [[41]])) htbb bpsTail hbpsTail [] enc1
            henc1 rest1 (f2 + 1)
            (by
              simp only [seg10_cons, seg10_nil, seg10_append,
                List.nil_append, List.append_nil, List.cons_append,
                List.append_assoc, List.singleton_append,
                List.length_append, List.length_cons]
              omega)
          obtain ⟨enc2, hrecB, henc2⟩ := hBinst
          simp only [seg10_cons, seg10_nil, seg10_append, List.nil_append,
            List.append_nil, List.cons_append, List.append_assoc,
            List.singleton_append] at hrecB
          refine ⟨enc2, ?_, henc2⟩
          simp only [seg10_cons, seg10_nil, seg10_append, List.nil_append,
            List.append_nil, List.cons_append, List.append_assoc,
            List.singleton_append]
          rw [parseGameTreeF.eq_def]
          simp only []
          rw [hdw10 40 (by rfl)]
          simp only []
          rw [hrecB]
          simp only []
          rw [parseGameTreeF_close]
      | cons n trunkRest2 ihA =>
        intro npRest hmap hwfn trunkAcc enc1 henc1 rest1 fuel1 hfuel1
        obtain ⟨np, npRest2, hn, hmap2, rfl⟩ := mapM_nodeBytes_cons hmap
        obtain ⟨parts, hparts, rfl⟩ := nodeBytes_shape hn
        obtain ⟨f1, rfl⟩ : ∃ f1, fuel1 = f1 + 1 := ⟨fuel1 - 1, by omega⟩
        obtain ⟨hnodup_n, hwfprops⟩ :=
          wfNodeB_parts (hwfn n (List.mem_cons_self _ _))
        have hfolR : followerB
            (seg10 (npRest2 ++ branchParts ++ [[41]]) ++ rest1) = true := by
          apply seg10_parts_follower
          · simp
          · intro p hp
            rcases List.mem_append.mp hp with hp1 | hp2
            · rcases List.mem_append.mp hp1 with hpa | hpb
              · obtain ⟨ps, rfl⟩ := mapM_nodeBytes_heads hmap2 p hpa
                exact ⟨59, ps, rfl, Or.inl rfl⟩
              · obtain ⟨inn, rfl⟩ := treeListBytes_heads hbps p hpb
                exact ⟨40, inn, rfl, Or.inr (Or.inl rfl)⟩
            · rw [List.mem_singleton] at hp2
              subst hp2
              exact ⟨41, [], rfl, Or.inr (Or.inr rfl)⟩
        have hnode := parseNodeF_round n [] enc1 parts
          (seg10 (npRest2 ++ branchParts ++ [[41]]) ++ rest1)
          hwfprops hnodup_n (fun pv _ => rfl) henc1 hparts hfolR f1
          (by
            simp only [seg10_cons, seg10_nil, seg10_append, List.nil_append,
              List.append_nil, List.cons_append, List.append_assoc,
              List.singleton_append, List.length_append, List.length_cons]
              at hfuel1 ⊢
            omega)
        obtain ⟨enc2, hrecN, henc2⟩ := hnode
        have hihA := ihA npRest2 hmap2
          (fun x hx => hwfn x (List.mem_cons_of_mem _ hx)) (trunkAcc ++ [n])
          enc2 henc2 rest1 f1
          (by
            simp only [seg10_cons, seg10_nil, seg10_append, List.nil_append,
              List.append_nil, List.cons_append, List.append_assoc,
              List.singleton_append, List.length_append, List.length_cons]
              at hfuel1 ⊢
            omega)
        obtain ⟨enc3, hrecA, henc3⟩ := hihA
        simp only [List.append_assoc] at hrecN hrecA
        refine ⟨enc3, ?_, henc3⟩
        simp only [seg10_cons, List.cons_append, List.append_assoc]
        rw [parseGameTreeF.eq_def]
        simp only []
        rw [hdw10 59 (by rfl)]
        simp only []
        rw [if_neg (show ¬(([] : List GameTree) ≠ []) from by simp)]
        rw [hrecN]
        simp only []
        simp only [List.nil_append]
        rw [hrecA]
        simp
    have hmain := Agen trunk nodeParts hnps htrwf [] enc hencOK rest fuel
      hfuel
    obtain ⟨enc2, hm, henc2⟩ := hmain
    refine ⟨enc2, ?_, henc2⟩
    rw [hm]
    simp

theorem dropWhile_all_append :
    ∀ (wsp : List Nat), (∀ b ∈ wsp, isWsByte b = true) →
      ∀ l : List Nat, (wsp ++ l).dropWhile isWsByte = l.dropWhile isWsByte := by
  intro wsp
  induction wsp with
  | nil => intro _ l; rfl
  | cons w ws ih =>
    intro h l
    rw [List.cons_append, List.dropWhile_cons, h w (List.mem_cons_self _ _)]
    exact ih (fun b hb => h b (List.mem_cons_of_mem _ hb)) l

theorem parseLoopF_nil (fuel : Nat) (enc : String) (acc : Collection) :
    parseLoopF (fuel + 1) enc [] acc = Except.ok (acc, enc, []) := rfl

theorem wfForest_of_collection :
    ∀ c : Collection, wfCollectionB c = true → wfForestB c = true := by
  intro c
  induction c with
  | nil => intro _; rfl
  | cons t ts ih =>
    intro h
    rw [wfCollectionB, List.all_cons, Bool.and_eq_true] at h
    rw [wfForestB, Bool.and_eq_true]
    exact ⟨h.1, ih (by rw [wfCollectionB]; exact h.2)⟩

/-- `parse`'s game loop inverts the serializer's blank-line joining of a
well-formed collection: every game is rebuilt in order and the input is
consumed exactly. -/
theorem parseLoopF_round :
    ∀ (cs : List GameTree) (tbs : List (List Nat)),
      wfForestB cs = true → treeListBytes cs = some tbs →
      ∀ (wsp : List Nat), (∀ b ∈ wsp, isWsByte b = true) →
        (cs = [] → wsp = []) →
      ∀ (acc : Collection) (enc1 : String),
        enc1 = "latin-1" ∨ enc1 = "UTF-8" →
      ∀ fuel : Nat,
        2 * (wsp ++ List.intercalate [10, 10] tbs).length + 4 ≤ fuel →
        ∃ enc2, parseLoopF fuel enc1 (wsp ++ List.intercalate [10, 10] tbs)
            acc = Except.ok (acc ++ cs, enc2, []) ∧
          (enc2 = "latin-1" ∨ enc2 = "UTF-8") := by
  intro cs
  induction cs with
  | nil =>
    intro tbs _ htbs wsp _ hwsp0 acc enc1 henc1 fuel hfuel
    have h0 : tbs = [] := by
      have h2 : some ([] : List (List Nat)) = some tbs := htbs
      injection h2 with h3
      exact h3.symm
    subst h0
    rw [hwsp0 rfl]
    obtain ⟨f1, rfl⟩ : ∃ f1, fuel = f1 + 1 := ⟨fuel - 1, by omega⟩
    refine ⟨enc1, ?_, henc1⟩
    simp only [List.nil_append, List.append_nil]
    exact parseLoopF_nil f1 enc1 acc
  | cons c1 cs2 ih =>
    intro tbs hfor htbs wsp hwsp _ acc enc1 henc1 fuel hfuel
    obtain ⟨hwfc1, hfor2⟩ := wfForestB_parts hfor
    obtain ⟨tb1, tbs2, htb1, htbs2, rfl⟩ := treeListBytes_cons htbs
    obtain ⟨tr1, bs1⟩ := c1
    obtain ⟨np1, bp1, hnp1, hbp1, hsh1⟩ := treeBytes_shape htb1
    subst hsh1
    obtain ⟨htr1ne, _, _⟩ := wfTreeB_parts hwfc1
    obtain ⟨f1, rfl⟩ : ∃ f1, fuel = f1 + 1 := ⟨fuel - 1, by omega⟩
    obtain ⟨f2, rfl⟩ : ∃ f2, f1 = f2 + 1 := by
      refine ⟨f1 - 1, ?_⟩
      simp only [List.length_append] at hfuel
      omega
    rw [intercalate_head] at hfuel ⊢
    rw [List.cons_append] at hfuel ⊢
    have htree := parseGameTreeF_round (treeSize (GameTree.mk tr1 bs1))
      tr1 bs1 le_rfl hwfc1 np1 bp1 hnp1 hbp1 enc1 henc1
      ((tbs2.map (fun p => [10, 10] ++ p)).flatten) f2
      (by
        simp only [List.length_append, List.length_cons] at hfuel ⊢
        omega)
    obtain ⟨enc2, hrec, henc2⟩ := htree
    have hone : parseOneGameF (f2 + 1) enc1
        (wsp ++ 40 :: (seg10 (np1 ++ bp1 ++ [[41]]) ++
          ((tbs2.map (fun p => [10, 10] ++ p)).flatten)))
        = Except.ok (some (GameTree.mk tr1 bs1), enc2,
          (tbs2.map (fun p => [10, 10] ++ p)).flatten) := by
      rw [parseOneGameF.eq_def]
      simp only []
      split
      · next heq =>
        exact absurd (List.append_eq_nil.mp heq).2 (by simp)
      · rw [dropWhile_all_append wsp hwsp,
          dropWhile_cons_neg (show isWsByte 40 = false from rfl)]
        simp only []
        rw [hrec]
    cases cs2 with
    | nil =>
      have h02 : tbs2 = [] := by
        have h2 : some ([] : List (List Nat)) = some tbs2 := htbs2
        injection h2 with h3
        exact h3.symm
      subst h02
      refine ⟨enc2, ?_, henc2⟩
      rw [parseLoopF.eq_def]
      simp only []
      split
      · next heq =>
        exact absurd (List.append_eq_nil.mp heq).2 (by simp)
      · rw [hone]
        simp only []
        rw [if_pos (show (GameTree.mk tr1 bs1).trunk ≠ [] from htr1ne)]
        obtain ⟨f3, rfl⟩ : ∃ f3, f2 = f3 + 1 := by
          refine ⟨f2 - 1, ?_⟩
          simp only [List.length_append, List.length_cons] at hfuel
          omega
        simp only [List.map_nil, List.flatten_nil]
        rw [parseLoopF_nil]
    | cons c2 cs3 =>
      obtain ⟨tb2, tbs3, htb2, htbs3, rfl⟩ := treeListBytes_cons htbs2
      have hih := ih (tb2 :: tbs3) hfor2 htbs2 [10, 10] (by decide)
        (fun h => List.noConfusion h) (acc ++ [GameTree.mk tr1 bs1]) enc2
        henc2 (f2 + 1)
        (by
          rw [intercalate_head]
          simp only [List.map_cons, List.flatten_cons, List.length_append,
            List.length_cons] at hfuel ⊢
          omega)
      obtain ⟨enc3, hloop, henc3⟩ := hih
      rw [intercalate_head] at hloop
      have hglue : ([10, 10] : List Nat) ++
          (tb2 ++ ((tbs3.map (fun p => [10, 10] ++ p)).flatten))
          = ((tb2 :: tbs3).map (fun p => [10, 10] ++ p)).flatten := by
        simp
      rw [hglue] at hloop
      refine ⟨enc3, ?_, henc3⟩
      rw [parseLoopF.eq_def]
      simp only []
      split
      · next heq =>
        exact absurd (List.append_eq_nil.mp heq).2 (by simp)
      · rw [hone]
        simp only []
        rw [if_pos (show (GameTree.mk tr1 bs1).trunk ≠ [] from htr1ne)]
        rw [hloop]
        simp

/-- C1 counterexample: the collection holding one node `C[\xe9]` is produced
by `parse` from the latin-1 byte `0xe9` (`233`), since the parser decodes
property values with the default `latin-1` codec.  Serializing it encodes
the text back as UTF-8 (`Node.__str__` via `str`/`encode` on the way out is
UTF-8), giving the two bytes `195, 169`; re-parsing those with the default
codec yields the mojibake text `\u00c3\u00a9`, not the original value, so the
round trip changes the collection even though no `CA` property is present. -/
theorem c1_counterexample :
    parseTop [40, 59, 67, 91, 233, 93, 41]
      = Except.ok [GameTree.mk [[("C", PValue.str "\u00e9")]] []] ∧
    collectionBytes [GameTree.mk [[("C", PValue.str "\u00e9")]] []]
      = some [40, 10, 59, 67, 91, 195, 169, 93, 10, 41] ∧
    parseTop [40, 10, 59, 67, 91, 195, 169, 93, 10, 41]
      = Except.ok [GameTree.mk [[("C", PValue.str "\u00c3\u00a9")]] []] ∧
    ("\u00c3\u00a9" : String) ≠ "\u00e9" :=
  ⟨rfl, rfl, rfl, by decide⟩

/-- C1 (amended: the round trip is exact for well-formed collections whose
property identifiers and text values are ASCII; values outside ASCII are
decoded as latin-1 by `parse` but re-encoded as UTF-8 by serialization, so
they do not survive the trip).  For every well-formed collection `c`,
re-parsing its canonical non-pretty serialization yields `c` itself:
`parse(serialize(c))` rebuilds every game tree, node and property value
byte-for-byte, with no whitespace or structural drift. -/
theorem c1_round_trip (c : Collection) (out : List Nat)
    (hwf : wfCollectionB c = true) (hser : collectionBytes c = some out) :
    parseTop out = Except.ok c := by
  rw [collectionBytes] at hser
  cases htbs : treeListBytes c with
  | none =>
    rw [htbs] at hser
    exact Option.noConfusion hser
  | some tbs =>
    rw [htbs] at hser
    have hout : out = List.intercalate [10, 10] tbs := by
      have h2 : some (List.intercalate [10, 10] tbs) = some out := hser
      injection h2 with h3
      exact h3.symm
    subst hout
    obtain ⟨enc2, hloop, _⟩ := parseLoopF_round c tbs
      (wfForest_of_collection c hwf) htbs [] (by intro b hb; cases hb)
      (fun _ => rfl) [] "latin-1" (Or.inl rfl)
      (3 * (List.intercalate [10, 10] tbs).length + 8)
      (by simp only [List.nil_append]; omega)
    simp only [List.nil_append] at hloop
    unfold parseTop
    rw [hloop]

/-- C1 witness: a concrete one-game collection serializes to
`(\n;B[aa]\n)` and parses back to itself. -/
theorem c1_witness :
    wfCollectionB [GameTree.mk [[("B", PValue.str "aa")]] []] = true ∧
    collectionBytes [GameTree.mk [[("B", PValue.str "aa")]] []]
      = some [40, 10, 59, 66, 91, 97, 97, 93, 10, 41] ∧
    parseTop [40, 10, 59, 66, 91, 97, 97, 93, 10, 41]
      = Except.ok [GameTree.mk [[("B", PValue.str "aa")]] []] :=
  ⟨rfl, rfl, c1_round_trip _ _ rfl rfl⟩

end Sgflib
